import Mathlib

/-!
Verification of the two-sided stable matching engine of this repository.

The Python sources `Ethical_Mutual_Happiness_Stable_Marriage_Solutions.py` and
`Ethical_Stable_Marriage_Matching_Algorithms.py` implement deferred acceptance
(Gale–Shapley) over Python dicts and lists.  This file gives a shallow
embedding of those functions — dicts become association lists with first-match
lookup and update-in-place assignment, `list.index` becomes `pyIndex`, the
nested `while`/`for` loops become a small-step state machine driven by fuel —
and proves the specification's claims about them.
-/

set_option maxRecDepth 8000

namespace SM

/-- Lookup in a Python dict modelled as an association list (first match wins). -/
def dlookup {κ v : Type} [DecidableEq κ] (k : κ) : List (κ × v) → Option v
  | [] => none
  | e :: rest => if e.1 = k then some e.2 else dlookup k rest

/-- Python dict assignment `d[k] = x`: update in place if the key exists, else append
(Python dicts preserve insertion order). -/
def dinsert {κ v : Type} [DecidableEq κ] (k : κ) (x : v) : List (κ × v) → List (κ × v)
  | [] => [(k, x)]
  | e :: rest => if e.1 = k then (k, x) :: rest else e :: dinsert k x rest

/-- Python `list.index`: position of the first occurrence.  Python raises
`ValueError` on a missing element; the sources only call `.index` on members,
where this total model agrees with Python. -/
def pyIndex {γ : Type} [DecidableEq γ] (x : γ) : List γ → Nat
  | [] => 0
  | y :: ys => if y = x then 0 else pyIndex x ys + 1

variable {α β : Type} [DecidableEq α] [DecidableEq β]

/-- State of `stable_marriage` (source lines 8–35): `freeMen` is the Python
`free_men` list, `engaged` the woman→man dict, `proposals` the man→history
dict, and `current` holds the man popped at line 16 together with the part of
his preference list the `for` loop of line 18 has not yet scanned. -/
structure GSState (α β : Type) where
  current : Option (α × List β)
  freeMen : List α
  engaged : List (β × α)
  proposals : List (α × List β)

/-- One elementary step of `stable_marriage`: pop a free man (line 16), give up
on an exhausted scan (end of the `for` loop), skip an already-proposed woman
(line 19), or perform a single proposal (lines 20–32). -/
def gsStep (mp : List (α × List β)) (wp : List (β × List α)) (s : GSState α β) :
    GSState α β :=
  match s.current with
  | none =>
    match s.freeMen with
    | [] => s
    | man :: rest =>
      { s with freeMen := rest, current := some (man, (dlookup man mp).getD []) }
  | some (_, []) => { s with current := none }
  | some (man, woman :: restPrefs) =>
    let hist := (dlookup man s.proposals).getD []
    if woman ∈ hist then { s with current := some (man, restPrefs) }
    else
      let proposals' := dinsert man (hist ++ [woman]) s.proposals
      match dlookup woman s.engaged with
      | none =>
        { s with current := none, engaged := dinsert woman man s.engaged,
                 proposals := proposals' }
      | some currentMan =>
        let wlist := (dlookup woman wp).getD []
        if pyIndex man wlist < pyIndex currentMan wlist then
          { s with current := none, engaged := dinsert woman man s.engaged,
                   proposals := proposals', freeMen := s.freeMen ++ [currentMan] }
        else { s with current := some (man, restPrefs), proposals := proposals' }

/-- Iterate `gsStep` until the `while free_men:` loop exits (no current man and
no free man), or the fuel runs out. -/
def gsRun (mp : List (α × List β)) (wp : List (β × List α)) :
    Nat → GSState α β → GSState α β
  | 0, s => s
  | n + 1, s =>
    match s.current, s.freeMen with
    | none, [] => s
    | _, _ => gsRun mp wp n (gsStep mp wp s)

/-- Initial state of `stable_marriage` (lines 9–13): all men free in dict
order, nobody engaged, empty proposal history for every man. -/
def initState (mp : List (α × List β)) : GSState α β :=
  ⟨none, mp.map Prod.fst, [], mp.map (fun e => (e.1, ([] : List β)))⟩

/-- Total length of all preference lists of one side. -/
def sumLens (mp : List (α × List β)) : Nat := (mp.map (fun e => e.2.length)).sum

/-- Length of the longest preference list of one side. -/
def maxLen (mp : List (α × List β)) : Nat := (mp.map (fun e => e.2.length)).foldr max 0

/-- Fuel that provably suffices to drive `gsRun` to completion. -/
def gsFuel (mp : List (α × List β)) : Nat :=
  (maxLen mp + 2) * sumLens mp + sumLens mp + 2 * mp.length + 1

/-- The engine `stable_marriage` of
`Ethical_Mutual_Happiness_Stable_Marriage_Solutions.py` (lines 8–35): runs the
deferred-acceptance loop and returns the final `engaged` dict. -/
def stable_marriage (mp : List (α × List β)) (wp : List (β × List α)) : List (β × α) :=
  (gsRun mp wp (gsFuel mp) (initState mp)).engaged

/-- Final state of the run, for stating invariant and history claims. -/
def finalState (mp : List (α × List β)) (wp : List (β × List α)) : GSState α β :=
  gsRun mp wp (gsFuel mp) (initState mp)

/-! ### Association list lemmas -/

/-- Key list of a dict. -/
def keysOf {κ v : Type} (l : List (κ × v)) : List κ := l.map Prod.fst

variable {κ v : Type} [DecidableEq κ]

theorem dlookup_mem {k : κ} {x : v} {l : List (κ × v)} (h : dlookup k l = some x) :
    (k, x) ∈ l := by
  induction l with
  | nil => simp [dlookup] at h
  | cons e rest ih =>
    rw [dlookup] at h
    by_cases he : e.1 = k
    · rw [if_pos he] at h
      injection h with h
      refine List.mem_cons.mpr (Or.inl ?_)
      rw [← he, ← h]
    · rw [if_neg he] at h
      exact List.mem_cons_of_mem _ (ih h)

theorem dlookup_isSome_of_mem_keys {k : κ} {l : List (κ × v)} (h : k ∈ keysOf l) :
    ∃ x, dlookup k l = some x := by
  induction l with
  | nil => simp [keysOf] at h
  | cons e rest ih =>
    by_cases he : e.1 = k
    · exact ⟨e.2, by simp [dlookup, he]⟩
    · simp only [keysOf, List.map_cons, List.mem_cons] at h
      rcases h with h | h
      · exact absurd h.symm he
      · obtain ⟨x, hx⟩ := ih h
        exact ⟨x, by simp [dlookup, he, hx]⟩

theorem dlookup_eq_none_of_not_mem_keys {k : κ} {l : List (κ × v)} (h : k ∉ keysOf l) :
    dlookup k l = none := by
  induction l with
  | nil => rfl
  | cons e rest ih =>
    simp only [keysOf, List.map_cons, List.mem_cons, not_or] at h
    have h1 : e.1 ≠ k := fun he => h.1 he.symm
    simp [dlookup, h1, ih h.2]

theorem mem_dlookup {k : κ} {x : v} {l : List (κ × v)} (hnd : (keysOf l).Nodup)
    (h : (k, x) ∈ l) : dlookup k l = some x := by
  induction l with
  | nil => simp at h
  | cons e rest ih =>
    simp only [keysOf, List.map_cons, List.nodup_cons] at hnd
    rcases List.mem_cons.mp h with h | h
    · simp [← h, dlookup]
    · have hk : k ∈ keysOf rest := List.mem_map.mpr ⟨(k, x), h, rfl⟩
      have he : e.1 ≠ k := fun hek => hnd.1 (hek ▸ hk)
      simp [dlookup, he, ih hnd.2 h]

theorem dlookup_dinsert_self (k : κ) (x : v) (l : List (κ × v)) :
    dlookup k (dinsert k x l) = some x := by
  induction l with
  | nil => simp [dinsert, dlookup]
  | cons e rest ih =>
    by_cases he : e.1 = k
    · simp [dinsert, he, dlookup]
    · simp [dinsert, he, dlookup, ih]

theorem dlookup_dinsert_ne {k k' : κ} (h : k' ≠ k) (x : v) (l : List (κ × v)) :
    dlookup k' (dinsert k x l) = dlookup k' l := by
  induction l with
  | nil => simp [dinsert, dlookup, Ne.symm h]
  | cons e rest ih =>
    by_cases he : e.1 = k
    · have he' : e.1 ≠ k' := by
        rw [he]
        exact Ne.symm h
      simp [dinsert, he, dlookup, Ne.symm h, he']
    · by_cases he' : e.1 = k'
      · simp [dinsert, he, dlookup, he', h]
      · simp [dinsert, he, dlookup, he', ih]

theorem self_mem_dinsert (k : κ) (x : v) (l : List (κ × v)) : (k, x) ∈ dinsert k x l := by
  induction l with
  | nil => simp [dinsert]
  | cons e rest ih =>
    by_cases he : e.1 = k
    · simp [dinsert, he]
    · simp only [dinsert, he, if_neg, not_false_iff]
      exact List.mem_cons_of_mem _ ih

theorem mem_dinsert {e : κ × v} {k : κ} {x : v} {l : List (κ × v)}
    (h : e ∈ dinsert k x l) : e = (k, x) ∨ e ∈ l := by
  induction l with
  | nil =>
    rw [dinsert, List.mem_singleton] at h
    exact Or.inl h
  | cons e' rest ih =>
    rw [dinsert] at h
    by_cases he : e'.1 = k
    · rw [if_pos he] at h
      rcases List.mem_cons.mp h with h | h
      · exact Or.inl h
      · exact Or.inr (List.mem_cons_of_mem _ h)
    · rw [if_neg he] at h
      rcases List.mem_cons.mp h with h | h
      · exact Or.inr (List.mem_cons.mpr (Or.inl h))
      · rcases ih h with h | h
        · exact Or.inl h
        · exact Or.inr (List.mem_cons.mpr (Or.inr h))

theorem mem_dinsert_of_ne {e : κ × v} {k : κ} (x : v) {l : List (κ × v)}
    (h : e ∈ l) (hek : e.1 ≠ k) : e ∈ dinsert k x l := by
  induction l with
  | nil => simp at h
  | cons e' rest ih =>
    rw [dinsert]
    by_cases he : e'.1 = k
    · rw [if_pos he]
      rcases List.mem_cons.mp h with h | h
      · exact absurd (by rw [h]; exact he) hek
      · exact List.mem_cons.mpr (Or.inr h)
    · rw [if_neg he]
      rcases List.mem_cons.mp h with h | h
      · exact List.mem_cons.mpr (Or.inl h)
      · exact List.mem_cons.mpr (Or.inr (ih h))

theorem mem_dinsert_elim {e : κ × v} {k : κ} {x : v} {l : List (κ × v)}
    (hnd : (keysOf l).Nodup) (h : e ∈ dinsert k x l) :
    e = (k, x) ∨ (e ∈ l ∧ e.1 ≠ k) := by
  induction l with
  | nil =>
    rw [dinsert, List.mem_singleton] at h
    exact Or.inl h
  | cons e' rest ih =>
    simp only [keysOf, List.map_cons, List.nodup_cons] at hnd
    rw [dinsert] at h
    by_cases he : e'.1 = k
    · rw [if_pos he] at h
      rcases List.mem_cons.mp h with h | h
      · exact Or.inl h
      · have hek : e.1 ≠ k := by
          intro hk
          apply hnd.1
          rw [he, ← hk]
          exact List.mem_map.mpr ⟨e, h, rfl⟩
        exact Or.inr ⟨List.mem_cons.mpr (Or.inr h), hek⟩
    · rw [if_neg he] at h
      rcases List.mem_cons.mp h with h | h
      · refine Or.inr ⟨List.mem_cons.mpr (Or.inl h), ?_⟩
        rw [h]
        exact he
      · rcases ih hnd.2 h with h | h
        · exact Or.inl h
        · exact Or.inr ⟨List.mem_cons.mpr (Or.inr h.1), h.2⟩

theorem dinsert_of_not_key {k : κ} {l : List (κ × v)} (h : dlookup k l = none) (x : v) :
    dinsert k x l = l ++ [(k, x)] := by
  induction l with
  | nil => rfl
  | cons e rest ih =>
    by_cases he : e.1 = k
    · simp [dlookup, he] at h
    · simp only [dlookup, he, if_neg, not_false_iff] at h
      simp [dinsert, he, ih h]

theorem keysOf_dinsert_of_mem {k : κ} {l : List (κ × v)} (h : k ∈ keysOf l) (x : v) :
    keysOf (dinsert k x l) = keysOf l := by
  induction l with
  | nil => simp [keysOf] at h
  | cons e rest ih =>
    by_cases he : e.1 = k
    · simp [dinsert, he, keysOf]
    · simp only [keysOf, List.map_cons, List.mem_cons] at h
      rcases h with h | h
      · exact absurd h.symm he
      · have hih := ih h
        simp only [keysOf] at hih
        simp [dinsert, he, keysOf, hih]

theorem keysOf_dinsert_nodup {k : κ} {l : List (κ × v)} (hnd : (keysOf l).Nodup) (x : v) :
    (keysOf (dinsert k x l)).Nodup := by
  by_cases h : k ∈ keysOf l
  · rw [keysOf_dinsert_of_mem h]
    exact hnd
  · rw [dinsert_of_not_key (dlookup_eq_none_of_not_mem_keys h) x]
    simp only [keysOf, List.map_append, List.map_cons, List.map_nil]
    rw [List.nodup_append]
    refine ⟨hnd, List.nodup_singleton _, ?_⟩
    intro a ha hak
    rw [List.mem_singleton] at hak
    subst hak
    exact h ha

theorem dlookup_map_val {κ v w : Type} [DecidableEq κ] (f : v → w) (k : κ)
    (l : List (κ × v)) :
    dlookup k (l.map (fun e => (e.1, f e.2))) = (dlookup k l).map f := by
  induction l with
  | nil => rfl
  | cons e rest ih =>
    by_cases he : e.1 = k
    · simp [dlookup, he]
    · simp [dlookup, he, ih]

/-! ### pyIndex lemmas -/

variable {γ : Type} [DecidableEq γ]

theorem pyIndex_of_not_mem {x : γ} {l : List γ} (h : x ∉ l) : pyIndex x l = l.length := by
  induction l with
  | nil => rfl
  | cons y ys ih =>
    simp only [List.mem_cons, not_or] at h
    have h1 : y ≠ x := fun hy => h.1 hy.symm
    simp [pyIndex, h1, ih h.2]

theorem pyIndex_lt_length {x : γ} {l : List γ} (h : x ∈ l) : pyIndex x l < l.length := by
  induction l with
  | nil => simp at h
  | cons y ys ih =>
    by_cases hy : y = x
    · simp [pyIndex, hy]
    · rcases List.mem_cons.mp h with h' | h'
      · exact absurd h'.symm hy
      · simpa [pyIndex, hy, Nat.succ_lt_succ_iff] using ih h'

theorem pyIndex_get? {x : γ} {l : List γ} (h : x ∈ l) : l.get? (pyIndex x l) = some x := by
  induction l with
  | nil => simp at h
  | cons y ys ih =>
    by_cases hy : y = x
    · simp [pyIndex, hy]
    · rcases List.mem_cons.mp h with h' | h'
      · exact absurd h'.symm hy
      · simpa [pyIndex, hy] using ih h'

theorem pyIndex_inj {x y : γ} {l : List γ} (hx : x ∈ l) (hy : y ∈ l)
    (h : pyIndex x l = pyIndex y l) : x = y := by
  have h1 := pyIndex_get? hx
  have h2 := pyIndex_get? hy
  rw [h] at h1
  rw [h1] at h2
  exact Option.some_injective _ h2

theorem pyIndex_of_get? {l : List γ} {n : Nat} {x : γ} (hnd : l.Nodup)
    (h : l.get? n = some x) : pyIndex x l = n := by
  induction l generalizing n with
  | nil => simp at h
  | cons y ys ih =>
    rcases n with _ | n
    · simp only [List.get?] at h
      cases h
      simp [pyIndex]
    · simp only [List.get?] at h
      have hxy : y ≠ x := by
        intro hyx
        have hx : x ∈ ys := List.get?_mem h
        rw [List.nodup_cons] at hnd
        exact hnd.1 (hyx ▸ hx)
      rw [List.nodup_cons] at hnd
      simp [pyIndex, hxy, ih hnd.2 h]

/-! ### Initial-segment predicate -/

/-- The list `l₁` is an initial segment of `l₂`. -/
def IsInit (l₁ l₂ : List γ) : Prop := ∃ t, l₂ = l₁ ++ t

theorem isInit_nil (l : List γ) : IsInit [] l := ⟨l, rfl⟩

theorem isInit_refl (l : List γ) : IsInit l l := ⟨[], by simp⟩

theorem IsInit.length_le {l₁ l₂ : List γ} (h : IsInit l₁ l₂) : l₁.length ≤ l₂.length := by
  obtain ⟨t, ht⟩ := h
  simp [ht]

theorem IsInit.subset {l₁ l₂ : List γ} (h : IsInit l₁ l₂) : l₁ ⊆ l₂ := by
  obtain ⟨t, ht⟩ := h
  intro x hx
  simp [ht, hx]

theorem IsInit.get? {l₁ l₂ : List γ} (h : IsInit l₁ l₂) {n : Nat} (hn : n < l₁.length) :
    l₂.get? n = l₁.get? n := by
  obtain ⟨t, ht⟩ := h
  rw [ht]
  exact List.get?_append hn

theorem IsInit.eq_of_length {l₁ l₂ : List γ} (h : IsInit l₁ l₂)
    (hlen : l₂.length ≤ l₁.length) : l₁ = l₂ := by
  obtain ⟨t, ht⟩ := h
  have : t = [] := by
    have := congrArg List.length ht
    simp at this
    cases t with
    | nil => rfl
    | cons a b => simp at this; omega
  simp [ht, this]

/-- The scanned part of a preference list is exactly the proposal history:
if `hist` is an initial segment of `prefs`, `prefs = l₀ ++ w :: restL`, every
element of `l₀` is in `hist`, but `w` is not, then `hist = l₀`. -/
theorem scanned_eq_hist {hist l₀ restL : List γ} {w : γ} {prefs : List γ}
    (hinit : IsInit hist prefs) (hsplit : prefs = l₀ ++ w :: restL)
    (hsub : ∀ x ∈ l₀, x ∈ hist) (hw : w ∉ hist) (hnd : prefs.Nodup) : hist = l₀ := by
  have hndl : l₀.Nodup := by
    rw [hsplit, List.nodup_append] at hnd
    exact hnd.1
  have hlen1 : l₀.length ≤ hist.length :=
    ((List.Nodup.subperm hndl) hsub).length_le
  have hlen2 : hist.length ≤ l₀.length := by
    by_contra hlt
    push_neg at hlt
    have hg : prefs.get? l₀.length = some w := by
      rw [hsplit]
      rw [List.get?_append_right (Nat.le_refl _)]
      simp
    have : hist.get? l₀.length = some w := by
      rw [← hinit.get? hlt]
      exact hg
    exact hw (List.get?_mem this)
  obtain ⟨t, ht⟩ := hinit
  rw [hsplit] at ht
  exact ((List.append_inj ht (by omega)).1).symm

/-! ### Input validity and the run invariant -/

variable {α β : Type} [DecidableEq α] [DecidableEq β]

/-- Preference list of a proposer, as the Python code reads it (line 17). -/
def prefsOf (mp : List (α × List β)) (m : α) : List β := (dlookup m mp).getD []

/-- Preference list of a receiver, as the Python code reads it (line 29). -/
def wlistOf (wp : List (β × List α)) (w : β) : List α := (dlookup w wp).getD []

/-- Proposal history of a proposer (the Python `proposals[man]` list). -/
def histOf (pr : List (α × List β)) (m : α) : List β := (dlookup m pr).getD []

/-- Well-formed input per the spec: dict keys are unique (automatic for Python
dicts) and every preference list is a permutation of the whole opposite side. -/
def Valid (mp : List (α × List β)) (wp : List (β × List α)) : Prop :=
  (keysOf mp).Nodup ∧ (keysOf wp).Nodup ∧
    (∀ e ∈ mp, e.2.Perm (keysOf wp)) ∧ ∀ e ∈ wp, e.2.Perm (keysOf mp)

instance (mp : List (α × List β)) (wp : List (β × List α)) : Decidable (Valid mp wp) := by
  unfold Valid
  infer_instance

/-- The proposer `m` is not the current partner of any receiver. -/
def NotEngaged (g : List (β × α)) (m : α) : Prop := ∀ e ∈ g, e.2 ≠ m

theorem notEngaged_lookup {g : List (β × α)} {m : α} (h : NotEngaged g m) (w : β) :
    dlookup w g ≠ some m := fun hl => h _ (dlookup_mem hl) rfl

theorem valid_prefs_perm {mp : List (α × List β)} {wp : List (β × List α)}
    (hv : Valid mp wp) {m : α} (hm : m ∈ keysOf mp) : (prefsOf mp m).Perm (keysOf wp) := by
  obtain ⟨l, hl⟩ := dlookup_isSome_of_mem_keys hm
  have hmem : (m, l) ∈ mp := dlookup_mem hl
  have := hv.2.2.1 (m, l) hmem
  simpa [prefsOf, hl] using this

theorem valid_prefs_nodup {mp : List (α × List β)} {wp : List (β × List α)}
    (hv : Valid mp wp) {m : α} (hm : m ∈ keysOf mp) : (prefsOf mp m).Nodup :=
  (valid_prefs_perm hv hm).symm.nodup hv.2.1

theorem valid_wlist_perm {mp : List (α × List β)} {wp : List (β × List α)}
    (hv : Valid mp wp) {w : β} (hw : w ∈ keysOf wp) : (wlistOf wp w).Perm (keysOf mp) := by
  obtain ⟨l, hl⟩ := dlookup_isSome_of_mem_keys hw
  have hmem : (w, l) ∈ wp := dlookup_mem hl
  have := hv.2.2.2 (w, l) hmem
  simpa [wlistOf, hl] using this

theorem valid_wlist_nodup {mp : List (α × List β)} {wp : List (β × List α)}
    (hv : Valid mp wp) {w : β} (hw : w ∈ keysOf wp) : (wlistOf wp w).Nodup :=
  (valid_wlist_perm hv hw).symm.nodup hv.1

theorem mem_keysW_of_mem_prefs {mp : List (α × List β)} {wp : List (β × List α)}
    (hv : Valid mp wp) {m : α} (hm : m ∈ keysOf mp) {x : β} (hx : x ∈ prefsOf mp m) :
    x ∈ keysOf wp := (valid_prefs_perm hv hm).mem_iff.mp hx

theorem mem_wlist_of_mem_keysM {mp : List (α × List β)} {wp : List (β × List α)}
    (hv : Valid mp wp) {w : β} (hw : w ∈ keysOf wp) {m : α} (hm : m ∈ keysOf mp) :
    m ∈ wlistOf wp w := (valid_wlist_perm hv hw).mem_iff.mpr hm

theorem mem_prefs_of_mem_keysW {mp : List (α × List β)} {wp : List (β × List α)}
    (hv : Valid mp wp) {m : α} (hm : m ∈ keysOf mp) {x : β} (hx : x ∈ keysOf wp) :
    x ∈ prefsOf mp m := (valid_prefs_perm hv hm).mem_iff.mpr hx

/-- Invariant maintained by every elementary step of `stable_marriage`. -/
structure Inv (mp : List (α × List β)) (wp : List (β × List α)) (s : GSState α β) :
    Prop where
  freeNodup : s.freeMen.Nodup
  freeKeys : ∀ m ∈ s.freeMen, m ∈ keysOf mp
  curKeys : ∀ m l, s.current = some (m, l) → m ∈ keysOf mp
  freeNotEng : ∀ m ∈ s.freeMen, NotEngaged s.engaged m
  curNotEng : ∀ m l, s.current = some (m, l) → NotEngaged s.engaged m
  curNotFree : ∀ m l, s.current = some (m, l) → m ∉ s.freeMen
  engKeysNodup : (keysOf s.engaged).Nodup
  engValsKeys : ∀ e ∈ s.engaged, e.2 ∈ keysOf mp
  engInj : ∀ w w' m, dlookup w s.engaged = some m → dlookup w' s.engaged = some m → w = w'
  propKeys : keysOf s.proposals = keysOf mp
  histInit : ∀ m ∈ keysOf mp, IsInit (histOf s.proposals m) (prefsOf mp m)
  curScan : ∀ m l, s.current = some (m, l) →
    ∃ l₀, prefsOf mp m = l₀ ++ l ∧ ∀ x ∈ l₀, x ∈ histOf s.proposals m
  exhausted : ∀ m ∈ keysOf mp, m ∉ s.freeMen → (∀ l, s.current ≠ some (m, l)) →
    NotEngaged s.engaged m → histOf s.proposals m = prefsOf mp m
  propBetter : ∀ m ∈ keysOf mp, ∀ w ∈ histOf s.proposals m,
    ∃ c, dlookup w s.engaged = some c ∧
      (c = m ∨ pyIndex c (wlistOf wp w) < pyIndex m (wlistOf wp w))
  engLast : ∀ w m, dlookup w s.engaged = some m → ∃ h, histOf s.proposals m = h ++ [w]

/-- During a proposal to `w`, the scanned part of the current man's list is
exactly his history, so his full preference list splits as history ++ rest. -/
theorem propose_split {mp : List (α × List β)} {wp : List (β × List α)}
    {s : GSState α β} (hv : Valid mp wp) (hs : Inv mp wp s) {man : α} {w : β}
    {restL : List β} (hcur : s.current = some (man, w :: restL))
    (hw : w ∉ histOf s.proposals man) :
    prefsOf mp man = histOf s.proposals man ++ w :: restL := by
  have hman : man ∈ keysOf mp := hs.curKeys man _ hcur
  obtain ⟨l₀, hsplit, hsub⟩ := hs.curScan man _ hcur
  have hhist := scanned_eq_hist (hs.histInit man hman) hsplit hsub hw
    (valid_prefs_nodup hv hman)
  rw [hsplit, hhist]

theorem histOf_initState (mp : List (α × List β)) (m : α) :
    histOf (mp.map fun e => (e.1, ([] : List β))) m = [] := by
  induction mp with
  | nil => rfl
  | cons e rest ih =>
    by_cases he : e.1 = m
    · simp [histOf, dlookup, he]
    · simpa [histOf, dlookup, he] using ih

theorem inv_init {mp : List (α × List β)} {wp : List (β × List α)} (hv : Valid mp wp) :
    Inv mp wp (initState mp) := by
  have hhist : ∀ m : α, histOf (initState mp).proposals m = [] := fun m =>
    histOf_initState mp m
  refine ⟨hv.1, ?_, ?_, ?_, ?_, ?_, ?_, ?_, ?_, ?_, ?_, ?_, ?_, ?_, ?_⟩
  · exact fun m hm => hm
  · intro m l hml
    simp [initState] at hml
  · intro m _ e he
    simp [initState] at he
  · intro m l hml
    simp [initState] at hml
  · intro m l hml
    simp [initState] at hml
  · simp [initState, keysOf]
  · intro e he
    simp [initState] at he
  · intro w w' m h1 h2
    simp [initState, dlookup] at h1
  · show keysOf (mp.map fun e => (e.1, ([] : List β))) = keysOf mp
    simp [keysOf]
  · intro m _
    rw [hhist m]
    exact isInit_nil _
  · intro m l hml
    simp [initState] at hml
  · intro m hm hfree hcur
    exact absurd hm hfree
  · intro m _ w hw
    rw [hhist m] at hw
    simp at hw
  · intro w m h
    simp [initState, dlookup] at h

theorem inv_pop {mp : List (α × List β)} {wp : List (β × List α)} {man : α}
    {free : List α} {eng : List (β × α)} {pr : List (α × List β)}
    (hs : Inv mp wp ⟨none, man :: free, eng, pr⟩) :
    Inv mp wp ⟨some (man, (dlookup man mp).getD []), free, eng, pr⟩ := by
  have hman : man ∈ keysOf mp := hs.freeKeys man (List.mem_cons_self man free)
  have hnd := hs.freeNodup
  rw [List.nodup_cons] at hnd
  refine ⟨hnd.2, ?_, ?_, ?_, ?_, ?_, hs.engKeysNodup, hs.engValsKeys, hs.engInj,
    hs.propKeys, hs.histInit, ?_, ?_, hs.propBetter, hs.engLast⟩
  · exact fun m hm => hs.freeKeys m (List.mem_cons_of_mem _ hm)
  · intro m l hml
    injection hml with hml
    injection hml with h1 _
    rw [← h1]
    exact hman
  · exact fun m hm => hs.freeNotEng m (List.mem_cons_of_mem _ hm)
  · intro m l hml e he
    injection hml with hml
    injection hml with h1 _
    rw [← h1]
    exact hs.freeNotEng man (List.mem_cons_self man free) e he
  · intro m l hml
    injection hml with hml
    injection hml with h1 _
    rw [← h1]
    exact hnd.1
  · intro m l hml
    injection hml with hml
    injection hml with h1 h2
    refine ⟨[], ?_, by simp⟩
    rw [← h1, ← h2]
    rfl
  · intro m hm hfree hcur heng
    refine hs.exhausted m hm ?_ (by simp) heng
    intro hmem
    rcases List.mem_cons.mp hmem with h | h
    · exact (hcur ((dlookup man mp).getD [])) (by rw [h])
    · exact hfree h

theorem inv_drop {mp : List (α × List β)} {wp : List (β × List α)} {man : α}
    {free : List α} {eng : List (β × α)} {pr : List (α × List β)}
    (hv : Valid mp wp) (hs : Inv mp wp ⟨some (man, []), free, eng, pr⟩) :
    Inv mp wp ⟨none, free, eng, pr⟩ := by
  have hman : man ∈ keysOf mp := hs.curKeys man [] rfl
  refine ⟨hs.freeNodup, hs.freeKeys, by simp, hs.freeNotEng, by simp, by simp,
    hs.engKeysNodup, hs.engValsKeys, hs.engInj, hs.propKeys, hs.histInit, by simp,
    ?_, hs.propBetter, hs.engLast⟩
  intro m hm hfree _ heng
  by_cases hmman : m = man
  · subst hmman
    obtain ⟨l₀, hsplit, hsub⟩ := hs.curScan m [] rfl
    rw [List.append_nil] at hsplit
    have hinit := hs.histInit m hm
    refine hinit.eq_of_length ?_
    have hsub' : prefsOf mp m ⊆ histOf pr m := by
      intro x hx
      exact hsub x (hsplit ▸ hx)
    exact ((valid_prefs_nodup hv hm).subperm hsub').length_le
  · refine hs.exhausted m hm hfree ?_ heng
    intro l hl
    injection hl with hl
    injection hl with h1 _
    exact hmman h1.symm

theorem inv_skip {mp : List (α × List β)} {wp : List (β × List α)} {man : α} {w : β}
    {restL : List β} {free : List α} {eng : List (β × α)} {pr : List (α × List β)}
    (hs : Inv mp wp ⟨some (man, w :: restL), free, eng, pr⟩)
    (hw : w ∈ histOf pr man) :
    Inv mp wp ⟨some (man, restL), free, eng, pr⟩ := by
  refine ⟨hs.freeNodup, hs.freeKeys, ?_, hs.freeNotEng, ?_, ?_,
    hs.engKeysNodup, hs.engValsKeys, hs.engInj, hs.propKeys, hs.histInit, ?_, ?_,
    hs.propBetter, hs.engLast⟩
  · intro m l hml
    injection hml with hml
    injection hml with h1 _
    rw [← h1]
    exact hs.curKeys man _ rfl
  · intro m l hml
    injection hml with hml
    injection hml with h1 _
    rw [← h1]
    exact hs.curNotEng man _ rfl
  · intro m l hml
    injection hml with hml
    injection hml with h1 _
    rw [← h1]
    exact hs.curNotFree man _ rfl
  · intro m l hml
    injection hml with hml
    injection hml with h1 h2
    obtain ⟨l₀, hsplit, hsub⟩ := hs.curScan man _ rfl
    refine ⟨l₀ ++ [w], ?_, ?_⟩
    · rw [← h1, hsplit, List.append_assoc, List.singleton_append, h2]
    · intro x hx
      rcases List.mem_append.mp hx with h | h
      · rw [← h1]
        exact hsub x h
      · rw [List.mem_singleton] at h
        rw [← h1, h]
        exact hw
  · intro m hm hfree hcur heng
    refine hs.exhausted m hm hfree ?_ heng
    intro l hl
    injection hl with hl
    injection hl with h1 _
    exact (hcur restL) (by rw [h1])

theorem dlookup_of_mem {κ v : Type} [DecidableEq κ] {l : List (κ × v)}
    (hnd : (keysOf l).Nodup) {e : κ × v} (he : e ∈ l) : dlookup e.1 l = some e.2 := by
  obtain ⟨a, b⟩ := e
  exact mem_dlookup hnd he

theorem histOf_dinsert_self (pr : List (α × List β)) (m : α) (h : List β) :
    histOf (dinsert m h pr) m = h := by
  simp [histOf, dlookup_dinsert_self]

theorem histOf_dinsert_ne {m m' : α} (hne : m' ≠ m) (pr : List (α × List β))
    (h : List β) : histOf (dinsert m h pr) m' = histOf pr m' := by
  simp [histOf, dlookup_dinsert_ne hne]

theorem inv_free {mp : List (α × List β)} {wp : List (β × List α)} {man : α} {w : β}
    {restL : List β} {free : List α} {eng : List (β × α)} {pr : List (α × List β)}
    (hv : Valid mp wp) (hs : Inv mp wp ⟨some (man, w :: restL), free, eng, pr⟩)
    (hw : w ∉ histOf pr man) (hfree : dlookup w eng = none) :
    Inv mp wp ⟨none, free, dinsert w man eng, dinsert man (histOf pr man ++ [w]) pr⟩ := by
  have hman : man ∈ keysOf mp := hs.curKeys man _ rfl
  have hsplit : prefsOf mp man = histOf pr man ++ w :: restL := propose_split hv hs rfl hw
  have hmanNE : NotEngaged eng man := hs.curNotEng man _ rfl
  have hprK : keysOf (dinsert man (histOf pr man ++ [w]) pr) = keysOf mp := by
    rw [keysOf_dinsert_of_mem]
    · exact hs.propKeys
    · rw [show keysOf pr = keysOf mp from hs.propKeys]
      exact hman
  refine ⟨hs.freeNodup, hs.freeKeys, ?_, ?_, ?_, ?_, keysOf_dinsert_nodup hs.engKeysNodup man,
    ?_, ?_, hprK, ?_, ?_, ?_, ?_, ?_⟩
  · intro m l hml
    exact absurd hml (by simp)
  · intro m hm e he
    rcases mem_dinsert he with h | h
    · subst h
      intro h2
      simp only at h2
      subst h2
      exact hs.curNotFree man _ rfl hm
    · exact hs.freeNotEng m hm e h
  · intro m l hml
    exact absurd hml (by simp)
  · intro m l hml
    exact absurd hml (by simp)
  · intro e he
    rcases mem_dinsert he with h | h
    · subst h
      exact hman
    · exact hs.engValsKeys e h
  · intro w1 w2 m h1 h2
    by_cases hw1 : w1 = w
    · by_cases hw2 : w2 = w
      · rw [hw1, hw2]
      · subst hw1
        rw [dlookup_dinsert_self] at h1
        injection h1 with h1
        rw [dlookup_dinsert_ne hw2] at h2
        rw [← h1] at h2
        exact absurd h2 (notEngaged_lookup hmanNE w2)
    · by_cases hw2 : w2 = w
      · subst hw2
        rw [dlookup_dinsert_self] at h2
        injection h2 with h2
        rw [dlookup_dinsert_ne hw1] at h1
        rw [← h2] at h1
        exact absurd h1 (notEngaged_lookup hmanNE w1)
      · rw [dlookup_dinsert_ne hw1] at h1
        rw [dlookup_dinsert_ne hw2] at h2
        exact hs.engInj w1 w2 m h1 h2
  · intro m hm
    by_cases hmman : m = man
    · subst hmman
      rw [histOf_dinsert_self]
      refine ⟨restL, ?_⟩
      rw [hsplit]
      simp
    · rw [histOf_dinsert_ne hmman]
      exact hs.histInit m hm
  · intro m l hml
    exact absurd hml (by simp)
  · intro m hm hfreem _ heng
    by_cases hmman : m = man
    · subst hmman
      exact absurd rfl (heng (w, m) (self_mem_dinsert w m eng))
    · rw [histOf_dinsert_ne hmman]
      refine hs.exhausted m hm hfreem ?_ ?_
      · intro l hl
        injection hl with hl
        injection hl with h1 _
        exact hmman h1.symm
      · intro e he
        have hek : e.1 ≠ w := by
          intro h
          have hmem : e.1 ∈ keysOf eng := List.mem_map.mpr ⟨e, he, rfl⟩
          rw [h] at hmem
          obtain ⟨x, hx⟩ := dlookup_isSome_of_mem_keys hmem
          rw [hfree] at hx
          exact Option.noConfusion hx
        exact heng e (mem_dinsert_of_ne man he hek)
  · intro m hm w1 hw1
    by_cases hw1w : w1 = w
    · subst hw1w
      by_cases hmman : m = man
      · subst hmman
        exact ⟨m, dlookup_dinsert_self _ _ _, Or.inl rfl⟩
      · rw [histOf_dinsert_ne hmman] at hw1
        obtain ⟨c, hcl, _⟩ := hs.propBetter m hm w1 hw1
        rw [hfree] at hcl
        exact Option.noConfusion hcl
    · have hist1 : w1 ∈ histOf pr m := by
        by_cases hmman : m = man
        · subst hmman
          rw [histOf_dinsert_self] at hw1
          rcases List.mem_append.mp hw1 with h | h
          · exact h
          · rw [List.mem_singleton] at h
            exact absurd h hw1w
        · rw [histOf_dinsert_ne hmman] at hw1
          exact hw1
      obtain ⟨c, hcl, hcc⟩ := hs.propBetter m hm w1 hist1
      exact ⟨c, by rw [dlookup_dinsert_ne hw1w]; exact hcl, hcc⟩
  · intro w1 m h1
    by_cases hw1w : w1 = w
    · subst hw1w
      rw [dlookup_dinsert_self] at h1
      injection h1 with h1
      subst h1
      rw [histOf_dinsert_self]
      exact ⟨histOf pr man, rfl⟩
    · rw [dlookup_dinsert_ne hw1w] at h1
      have hmman : m ≠ man := by
        intro h
        rw [h] at h1
        exact notEngaged_lookup hmanNE w1 h1
      rw [histOf_dinsert_ne hmman]
      exact hs.engLast w1 m h1

theorem inv_displace {mp : List (α × List β)} {wp : List (β × List α)} {man c : α}
    {w : β} {restL : List β} {free : List α} {eng : List (β × α)} {pr : List (α × List β)}
    (hv : Valid mp wp) (hs : Inv mp wp ⟨some (man, w :: restL), free, eng, pr⟩)
    (hw : w ∉ histOf pr man) (hc : dlookup w eng = some c)
    (hcomp : pyIndex man (wlistOf wp w) < pyIndex c (wlistOf wp w)) :
    Inv mp wp ⟨none, free ++ [c], dinsert w man eng,
      dinsert man (histOf pr man ++ [w]) pr⟩ := by
  have hman : man ∈ keysOf mp := hs.curKeys man _ rfl
  have hsplit : prefsOf mp man = histOf pr man ++ w :: restL := propose_split hv hs rfl hw
  have hmanNE : NotEngaged eng man := hs.curNotEng man _ rfl
  have hcmem : (w, c) ∈ eng := dlookup_mem hc
  have hcK : c ∈ keysOf mp := hs.engValsKeys _ hcmem
  have hmanc : man ≠ c := fun h => hmanNE (w, c) hcmem h.symm
  have hcnotfree : c ∉ free := fun h => hs.freeNotEng c h (w, c) hcmem rfl
  have hprK : keysOf (dinsert man (histOf pr man ++ [w]) pr) = keysOf mp := by
    rw [keysOf_dinsert_of_mem]
    · exact hs.propKeys
    · rw [show keysOf pr = keysOf mp from hs.propKeys]
      exact hman
  refine ⟨?_, ?_, ?_, ?_, ?_, ?_, keysOf_dinsert_nodup hs.engKeysNodup man,
    ?_, ?_, hprK, ?_, ?_, ?_, ?_, ?_⟩
  · rw [List.nodup_append]
    refine ⟨hs.freeNodup, List.nodup_singleton _, ?_⟩
    intro a ha hac
    rw [List.mem_singleton] at hac
    subst hac
    exact hcnotfree ha
  · intro m hm
    rcases List.mem_append.mp hm with h | h
    · exact hs.freeKeys m h
    · rw [List.mem_singleton] at h
      subst h
      exact hcK
  · intro m l hml
    exact absurd hml (by simp)
  · intro m hm e he
    rcases mem_dinsert_elim hs.engKeysNodup he with h | h
    · subst h
      intro h2
      simp only at h2
      subst h2
      rcases List.mem_append.mp hm with h | h
      · exact hs.curNotFree man _ rfl h
      · rw [List.mem_singleton] at h
        exact hmanc h
    · rcases List.mem_append.mp hm with hmf | hmf
      · exact hs.freeNotEng m hmf e h.1
      · rw [List.mem_singleton] at hmf
        subst hmf
        intro h2
        have hl := dlookup_of_mem hs.engKeysNodup h.1
        rw [h2] at hl
        exact h.2 (hs.engInj e.1 w m hl hc)
  · intro m l hml
    exact absurd hml (by simp)
  · intro m l hml
    exact absurd hml (by simp)
  · intro e he
    rcases mem_dinsert he with h | h
    · subst h
      exact hman
    · exact hs.engValsKeys e h
  · intro w1 w2 m h1 h2
    by_cases hw1 : w1 = w
    · by_cases hw2 : w2 = w
      · rw [hw1, hw2]
      · subst hw1
        rw [dlookup_dinsert_self] at h1
        injection h1 with h1
        rw [dlookup_dinsert_ne hw2] at h2
        rw [← h1] at h2
        exact absurd h2 (notEngaged_lookup hmanNE w2)
    · by_cases hw2 : w2 = w
      · subst hw2
        rw [dlookup_dinsert_self] at h2
        injection h2 with h2
        rw [dlookup_dinsert_ne hw1] at h1
        rw [← h2] at h1
        exact absurd h1 (notEngaged_lookup hmanNE w1)
      · rw [dlookup_dinsert_ne hw1] at h1
        rw [dlookup_dinsert_ne hw2] at h2
        exact hs.engInj w1 w2 m h1 h2
  · intro m hm
    by_cases hmman : m = man
    · subst hmman
      rw [histOf_dinsert_self]
      refine ⟨restL, ?_⟩
      rw [hsplit]
      simp
    · rw [histOf_dinsert_ne hmman]
      exact hs.histInit m hm
  · intro m l hml
    exact absurd hml (by simp)
  · intro m hm hfreem _ heng
    have hmc : m ≠ c := by
      intro h
      subst h
      exact hfreem (List.mem_append.mpr (Or.inr (List.mem_singleton.mpr rfl)))
    by_cases hmman : m = man
    · subst hmman
      exact absurd rfl (heng (w, m) (self_mem_dinsert w m eng))
    · rw [histOf_dinsert_ne hmman]
      refine hs.exhausted m hm (fun h => hfreem (List.mem_append.mpr (Or.inl h))) ?_ ?_
      · intro l hl
        injection hl with hl
        injection hl with h1 _
        exact hmman h1.symm
      · intro e he
        by_cases hew : e.1 = w
        · intro h2
          have hl := dlookup_of_mem hs.engKeysNodup he
          rw [hew, hc] at hl
          injection hl with hl
          rw [h2] at hl
          exact hmc hl.symm
        · exact heng e (mem_dinsert_of_ne man he hew)
  · intro m hm w1 hw1
    by_cases hw1w : w1 = w
    · subst hw1w
      refine ⟨man, dlookup_dinsert_self _ _ _, ?_⟩
      by_cases hmman : m = man
      · exact Or.inl hmman.symm
      · rw [histOf_dinsert_ne hmman] at hw1
        obtain ⟨c', hc', hcc'⟩ := hs.propBetter m hm w1 hw1
        rw [hc] at hc'
        injection hc' with hc'
        subst hc'
        right
        rcases hcc' with h | h
        · rw [← h]
          exact hcomp
        · exact lt_trans hcomp h
    · have hist1 : w1 ∈ histOf pr m := by
        by_cases hmman : m = man
        · subst hmman
          rw [histOf_dinsert_self] at hw1
          rcases List.mem_append.mp hw1 with h | h
          · exact h
          · rw [List.mem_singleton] at h
            exact absurd h hw1w
        · rw [histOf_dinsert_ne hmman] at hw1
          exact hw1
      obtain ⟨c', hcl, hcc⟩ := hs.propBetter m hm w1 hist1
      exact ⟨c', by rw [dlookup_dinsert_ne hw1w]; exact hcl, hcc⟩
  · intro w1 m h1
    by_cases hw1w : w1 = w
    · subst hw1w
      rw [dlookup_dinsert_self] at h1
      injection h1 with h1
      subst h1
      rw [histOf_dinsert_self]
      exact ⟨histOf pr man, rfl⟩
    · rw [dlookup_dinsert_ne hw1w] at h1
      have hmman : m ≠ man := by
        intro h
        rw [h] at h1
        exact notEngaged_lookup hmanNE w1 h1
      rw [histOf_dinsert_ne hmman]
      exact hs.engLast w1 m h1

theorem inv_reject {mp : List (α × List β)} {wp : List (β × List α)} {man c : α}
    {w : β} {restL : List β} {free : List α} {eng : List (β × α)} {pr : List (α × List β)}
    (hv : Valid mp wp) (hs : Inv mp wp ⟨some (man, w :: restL), free, eng, pr⟩)
    (hw : w ∉ histOf pr man) (hc : dlookup w eng = some c)
    (hcomp : ¬ pyIndex man (wlistOf wp w) < pyIndex c (wlistOf wp w)) :
    Inv mp wp ⟨some (man, restL), free, eng,
      dinsert man (histOf pr man ++ [w]) pr⟩ := by
  have hman : man ∈ keysOf mp := hs.curKeys man _ rfl
  have hsplit : prefsOf mp man = histOf pr man ++ w :: restL := propose_split hv hs rfl hw
  have hmanNE : NotEngaged eng man := hs.curNotEng man _ rfl
  have hcmem : (w, c) ∈ eng := dlookup_mem hc
  have hcK : c ∈ keysOf mp := hs.engValsKeys _ hcmem
  have hmanc : man ≠ c := fun h => hmanNE (w, c) hcmem h.symm
  have hwW : w ∈ keysOf wp := by
    refine mem_keysW_of_mem_prefs hv hman ?_
    rw [hsplit]
    exact List.mem_append.mpr (Or.inr (List.mem_cons_self _ _))
  have hstrict : pyIndex c (wlistOf wp w) < pyIndex man (wlistOf wp w) := by
    have hmw : man ∈ wlistOf wp w := mem_wlist_of_mem_keysM hv hwW hman
    have hcw : c ∈ wlistOf wp w := mem_wlist_of_mem_keysM hv hwW hcK
    have hne : pyIndex c (wlistOf wp w) ≠ pyIndex man (wlistOf wp w) := by
      intro h
      exact hmanc (pyIndex_inj hcw hmw h).symm
    omega
  have hprK : keysOf (dinsert man (histOf pr man ++ [w]) pr) = keysOf mp := by
    rw [keysOf_dinsert_of_mem]
    · exact hs.propKeys
    · rw [show keysOf pr = keysOf mp from hs.propKeys]
      exact hman
  refine ⟨hs.freeNodup, hs.freeKeys, ?_, hs.freeNotEng, ?_, ?_, hs.engKeysNodup,
    hs.engValsKeys, hs.engInj, hprK, ?_, ?_, ?_, ?_, ?_⟩
  · intro m l hml
    injection hml with hml
    injection hml with h1 _
    rw [← h1]
    exact hman
  · intro m l hml
    injection hml with hml
    injection hml with h1 _
    rw [← h1]
    exact hmanNE
  · intro m l hml
    injection hml with hml
    injection hml with h1 _
    rw [← h1]
    exact hs.curNotFree man _ rfl
  · intro m hm
    by_cases hmman : m = man
    · subst hmman
      rw [histOf_dinsert_self]
      refine ⟨restL, ?_⟩
      rw [hsplit]
      simp
    · rw [histOf_dinsert_ne hmman]
      exact hs.histInit m hm
  · intro m l hml
    injection hml with hml
    injection hml with h1 h2
    refine ⟨histOf pr man ++ [w], ?_, ?_⟩
    · rw [← h1, ← h2, hsplit]
      simp
    · intro x hx
      rw [← h1, histOf_dinsert_self]
      exact hx
  · intro m hm hfreem hcur heng
    have hmman : m ≠ man := by
      intro h
      exact (hcur restL) (by rw [h])
    rw [histOf_dinsert_ne hmman]
    refine hs.exhausted m hm hfreem ?_ heng
    intro l hl
    injection hl with hl
    injection hl with h1 _
    exact hmman h1.symm
  · intro m hm w1 hw1
    by_cases hmman : m = man
    · subst hmman
      rw [histOf_dinsert_self] at hw1
      rcases List.mem_append.mp hw1 with h | h
      · exact hs.propBetter m hm w1 h
      · rw [List.mem_singleton] at h
        subst h
        exact ⟨c, hc, Or.inr hstrict⟩
    · rw [histOf_dinsert_ne hmman] at hw1
      exact hs.propBetter m hm w1 hw1
  · intro w1 m h1
    have hmman : m ≠ man := by
      intro h
      rw [h] at h1
      exact notEngaged_lookup hmanNE w1 h1
    rw [histOf_dinsert_ne hmman]
    exact hs.engLast w1 m h1

theorem inv_step {mp : List (α × List β)} {wp : List (β × List α)} {s : GSState α β}
    (hv : Valid mp wp) (hs : Inv mp wp s) : Inv mp wp (gsStep mp wp s) := by
  obtain ⟨cur, free, eng, pr⟩ := s
  cases cur with
  | none =>
    cases free with
    | nil => exact hs
    | cons man rest => exact inv_pop hs
  | some ml =>
    obtain ⟨man, l⟩ := ml
    cases l with
    | nil => exact inv_drop hv hs
    | cons w restL =>
      by_cases hw : w ∈ histOf pr man
      · have hred : gsStep mp wp ⟨some (man, w :: restL), free, eng, pr⟩ =
            ⟨some (man, restL), free, eng, pr⟩ := by
          simp [gsStep, histOf] at hw ⊢
          simp [hw]
        rw [hred]
        exact inv_skip hs hw
      · cases hc : dlookup w eng with
        | none =>
          have hred : gsStep mp wp ⟨some (man, w :: restL), free, eng, pr⟩ =
              ⟨none, free, dinsert w man eng, dinsert man (histOf pr man ++ [w]) pr⟩ := by
            have hw' : w ∉ (dlookup man pr).getD [] := hw
            simp [gsStep, hw', hc, histOf]
          rw [hred]
          exact inv_free hv hs hw hc
        | some c =>
          by_cases hcomp : pyIndex man (wlistOf wp w) < pyIndex c (wlistOf wp w)
          · have hred : gsStep mp wp ⟨some (man, w :: restL), free, eng, pr⟩ =
                ⟨none, free ++ [c], dinsert w man eng,
                  dinsert man (histOf pr man ++ [w]) pr⟩ := by
              have hw' : w ∉ (dlookup man pr).getD [] := hw
              have hcomp' : pyIndex man ((dlookup w wp).getD []) <
                  pyIndex c ((dlookup w wp).getD []) := hcomp
              simp [gsStep, hw', hc, hcomp', histOf]
            rw [hred]
            exact inv_displace hv hs hw hc hcomp
          · have hred : gsStep mp wp ⟨some (man, w :: restL), free, eng, pr⟩ =
                ⟨some (man, restL), free, eng,
                  dinsert man (histOf pr man ++ [w]) pr⟩ := by
              have hw' : w ∉ (dlookup man pr).getD [] := hw
              have hcomp' : ¬ pyIndex man ((dlookup w wp).getD []) <
                  pyIndex c ((dlookup w wp).getD []) := hcomp
              simp [gsStep, hw', hc, hcomp', histOf]
            rw [hred]
            exact inv_reject hv hs hw hc hcomp

theorem inv_run {mp : List (α × List β)} {wp : List (β × List α)} (hv : Valid mp wp) :
    ∀ (n : Nat) (s : GSState α β), Inv mp wp s → Inv mp wp (gsRun mp wp n s) := by
  intro n
  induction n with
  | zero => exact fun s hs => hs
  | succ n ih =>
    intro s hs
    rw [gsRun]
    rcases hcur : s.current with _ | ml
    · rcases hfree : s.freeMen with _ | ⟨man, rest⟩
      · exact hs
      · have hs' : Inv mp wp (gsStep mp wp s) := inv_step hv hs
        obtain ⟨cur, fr, eng, pr⟩ := s
        simp only at hcur hfree
        subst hcur
        subst hfree
        exact ih _ hs'
    · have hs' : Inv mp wp (gsStep mp wp s) := inv_step hv hs
      obtain ⟨cur, fr, eng, pr⟩ := s
      simp only at hcur
      subst hcur
      exact ih _ hs'

/-! ### Termination -/

/-- Remaining proposals: for each proposer, how much of his list is unproposed. -/
def remainingP (mp pr : List (α × List β)) : Nat :=
  (mp.map (fun e => e.2.length - (histOf pr e.1).length)).sum

/-- Weight of a man waiting in the free list. -/
def menWeight (mp : List (α × List β)) (m : α) : Nat := (prefsOf mp m).length + 2

/-- Weight of the currently scanning man. -/
def curWeight : Option (α × List β) → Nat
  | none => 0
  | some (_, l) => l.length + 1

/-- Strictly decreasing measure for the deferred-acceptance loop. -/
def gsMeasure (mp : List (α × List β)) (s : GSState α β) : Nat :=
  (maxLen mp + 2) * remainingP mp s.proposals +
    (s.freeMen.map (menWeight mp)).sum + curWeight s.current

/-- The `while` loop of `stable_marriage` has exited. -/
def Halted (s : GSState α β) : Prop := s.current = none ∧ s.freeMen = []

theorem length_le_maxLen {mp : List (α × List β)} {m : α} {l : List β}
    (h : (m, l) ∈ mp) : l.length ≤ maxLen mp := by
  induction mp with
  | nil => simp at h
  | cons e rest ih =>
    rcases List.mem_cons.mp h with h | h
    · rw [maxLen, List.map_cons, List.foldr_cons]
      have : l.length = e.2.length := by rw [← h]
      rw [this]
      exact Nat.le_max_left _ _
    · rw [maxLen, List.map_cons, List.foldr_cons]
      exact le_trans (ih h) (Nat.le_max_right _ _)

theorem menWeight_le (mp : List (α × List β)) (m : α) :
    menWeight mp m ≤ maxLen mp + 2 := by
  rw [menWeight, prefsOf]
  cases hl : dlookup m mp with
  | none => simp
  | some l =>
    have := length_le_maxLen (dlookup_mem hl)
    simpa using this

theorem remainingP_dinsert {mp pr : List (α × List β)} (hnd : (keysOf mp).Nodup)
    {man : α} (hman : man ∈ keysOf mp) (w : β)
    (hlt : (histOf pr man).length < (prefsOf mp man).length) :
    remainingP mp (dinsert man (histOf pr man ++ [w]) pr) + 1 = remainingP mp pr := by
  induction mp with
  | nil => simp [keysOf] at hman
  | cons e rest ih =>
    simp only [keysOf, List.map_cons, List.nodup_cons] at hnd
    rw [remainingP, List.map_cons, List.sum_cons, remainingP, List.map_cons, List.sum_cons]
    by_cases he : e.1 = man
    · have hrest :
          (rest.map (fun e' => e'.2.length -
            (histOf (dinsert man (histOf pr man ++ [w]) pr) e'.1).length)) =
          (rest.map (fun e' => e'.2.length - (histOf pr e'.1).length)) := by
        apply List.map_congr_left
        intro e' he'
        have hne : e'.1 ≠ man := by
          intro hq
          apply hnd.1
          rw [he, ← hq]
          exact List.mem_map.mpr ⟨e', he', rfl⟩
        rw [histOf_dinsert_ne hne]
      rw [hrest]
      have hpe : prefsOf (e :: rest) man = e.2 := by
        rw [prefsOf, dlookup, if_pos he]
        rfl
      rw [hpe] at hlt
      rw [he, histOf_dinsert_self]
      rw [List.length_append, List.length_singleton]
      omega
    · have hne : e.1 ≠ man := he
      rw [histOf_dinsert_ne hne]
      have hman' : man ∈ keysOf rest := by
        rcases List.mem_cons.mp hman with h | h
        · exact absurd h.symm he
        · exact h
      have hlt' : (histOf pr man).length < (prefsOf rest man).length := by
        have : prefsOf (e :: rest) man = prefsOf rest man := by
          rw [prefsOf, dlookup, if_neg he, prefsOf]
        rw [this] at hlt
        exact hlt
      have := ih hnd.2 hman' hlt'
      simp only [remainingP] at this
      omega

theorem hist_lt_of_propose {mp : List (α × List β)} {wp : List (β × List α)}
    {s : GSState α β} (hv : Valid mp wp) (hs : Inv mp wp s) {man : α} {w : β}
    {restL : List β} (hcur : s.current = some (man, w :: restL))
    (hw : w ∉ histOf s.proposals man) :
    (histOf s.proposals man).length < (prefsOf mp man).length := by
  have := propose_split hv hs hcur hw
  rw [this]
  simp

theorem measure_step {mp : List (α × List β)} {wp : List (β × List α)}
    {s : GSState α β} (hv : Valid mp wp) (hs : Inv mp wp s) (hnh : ¬ Halted s) :
    gsMeasure mp (gsStep mp wp s) < gsMeasure mp s := by
  obtain ⟨cur, free, eng, pr⟩ := s
  cases cur with
  | none =>
    cases free with
    | nil => exact absurd ⟨rfl, rfl⟩ hnh
    | cons man rest =>
      show gsMeasure mp ⟨some (man, (dlookup man mp).getD []), rest, eng, pr⟩ <
        gsMeasure mp ⟨none, man :: rest, eng, pr⟩
      simp only [gsMeasure, curWeight, List.map_cons, List.sum_cons, menWeight, prefsOf]
      omega
  | some ml =>
    obtain ⟨man, l⟩ := ml
    cases l with
    | nil =>
      show gsMeasure mp ⟨none, free, eng, pr⟩ <
        gsMeasure mp ⟨some (man, []), free, eng, pr⟩
      simp only [gsMeasure, curWeight, List.length_nil]
      omega
    | cons w restL =>
      have hman : man ∈ keysOf mp := hs.curKeys man _ rfl
      by_cases hw : w ∈ histOf pr man
      · have hred : gsStep mp wp ⟨some (man, w :: restL), free, eng, pr⟩ =
            ⟨some (man, restL), free, eng, pr⟩ := by
          simp [gsStep, histOf] at hw ⊢
          simp [hw]
        rw [hred]
        simp only [gsMeasure, curWeight, List.length_cons]
        omega
      · have hlt : (histOf pr man).length < (prefsOf mp man).length :=
          hist_lt_of_propose hv hs rfl hw
        have hrem := remainingP_dinsert hv.1 hman w hlt
        have hmul : (maxLen mp + 2) *
              remainingP mp (dinsert man (histOf pr man ++ [w]) pr) + (maxLen mp + 2) =
            (maxLen mp + 2) * remainingP mp pr := by
          rw [← hrem]
          ring
        cases hc : dlookup w eng with
        | none =>
          have hred : gsStep mp wp ⟨some (man, w :: restL), free, eng, pr⟩ =
              ⟨none, free, dinsert w man eng, dinsert man (histOf pr man ++ [w]) pr⟩ := by
            have hw' : w ∉ (dlookup man pr).getD [] := hw
            simp [gsStep, hw', hc, histOf]
          rw [hred]
          simp only [gsMeasure, curWeight, List.length_cons]
          omega
        | some c =>
          by_cases hcomp : pyIndex man (wlistOf wp w) < pyIndex c (wlistOf wp w)
          · have hred : gsStep mp wp ⟨some (man, w :: restL), free, eng, pr⟩ =
                ⟨none, free ++ [c], dinsert w man eng,
                  dinsert man (histOf pr man ++ [w]) pr⟩ := by
              have hw' : w ∉ (dlookup man pr).getD [] := hw
              have hcomp' : pyIndex man ((dlookup w wp).getD []) <
                  pyIndex c ((dlookup w wp).getD []) := hcomp
              simp [gsStep, hw', hc, hcomp', histOf]
            rw [hred]
            have hcw := menWeight_le mp c
            simp only [gsMeasure, curWeight, List.length_cons, List.map_append,
              List.sum_append, List.map_cons, List.sum_cons, List.map_nil, List.sum_nil]
            omega
          · have hred : gsStep mp wp ⟨some (man, w :: restL), free, eng, pr⟩ =
                ⟨some (man, restL), free, eng,
                  dinsert man (histOf pr man ++ [w]) pr⟩ := by
              have hw' : w ∉ (dlookup man pr).getD [] := hw
              have hcomp' : ¬ pyIndex man ((dlookup w wp).getD []) <
                  pyIndex c ((dlookup w wp).getD []) := hcomp
              simp [gsStep, hw', hc, hcomp', histOf]
            rw [hred]
            simp only [gsMeasure, curWeight, List.length_cons]
            omega

theorem run_halted {mp : List (α × List β)} {wp : List (β × List α)} (hv : Valid mp wp) :
    ∀ (n : Nat) (s : GSState α β), Inv mp wp s → gsMeasure mp s < n →
      Halted (gsRun mp wp n s) := by
  intro n
  induction n with
  | zero =>
    intro s _ h
    omega
  | succ n ih =>
    intro s hs hlt
    rw [gsRun]
    rcases hcur : s.current with _ | ml
    · rcases hfree : s.freeMen with _ | ⟨man, rest⟩
      · obtain ⟨cur, fr, eng, pr⟩ := s
        simp only at hcur hfree
        subst hcur
        subst hfree
        exact ⟨rfl, rfl⟩
      · have hnh : ¬ Halted s := by
          intro h
          obtain ⟨_, h2⟩ := h
          rw [hfree] at h2
          exact List.noConfusion h2
        have hdec := measure_step hv hs hnh
        have hs' := inv_step hv hs
        obtain ⟨cur, fr, eng, pr⟩ := s
        simp only at hcur hfree
        subst hcur
        subst hfree
        exact ih _ hs' (by omega)
    · have hnh : ¬ Halted s := by
        intro h
        obtain ⟨h1, _⟩ := h
        rw [hcur] at h1
        exact Option.noConfusion h1
      have hdec := measure_step hv hs hnh
      have hs' := inv_step hv hs
      obtain ⟨cur, fr, eng, pr⟩ := s
      simp only at hcur
      subst hcur
      exact ih _ hs' (by omega)

theorem remainingP_init (mp : List (α × List β)) :
    remainingP mp (initState mp).proposals = sumLens mp := by
  rw [remainingP, sumLens]
  apply congrArg
  apply List.map_congr_left
  intro e _
  rw [show (initState mp).proposals = mp.map (fun e => (e.1, ([] : List β))) from rfl]
  rw [histOf_initState]
  simp

theorem freeSum_init {mp : List (α × List β)} (hnd : (keysOf mp).Nodup) :
    ((keysOf mp).map (menWeight mp)).sum = sumLens mp + 2 * mp.length := by
  induction mp with
  | nil => simp [keysOf, sumLens]
  | cons e rest ih =>
    simp only [keysOf, List.map_cons, List.nodup_cons] at hnd
    rw [keysOf, List.map_cons, List.map_cons, List.sum_cons]
    have h1 : menWeight (e :: rest) e.1 = e.2.length + 2 := by
      rw [menWeight, prefsOf, dlookup, if_pos rfl]
      rfl
    have h2 : (List.map Prod.fst rest).map (menWeight (e :: rest)) =
        (List.map Prod.fst rest).map (menWeight rest) := by
      apply List.map_congr_left
      intro m hm
      have hne : e.1 ≠ m := by
        intro h
        exact hnd.1 (h ▸ hm)
      rw [menWeight, menWeight, prefsOf, prefsOf, dlookup, if_neg hne]
    rw [h1, h2]
    have hih := ih hnd.2
    rw [keysOf] at hih
    rw [hih]
    simp only [sumLens, List.map_cons, List.sum_cons, List.length_cons]
    omega

theorem measure_init {mp : List (α × List β)} (hnd : (keysOf mp).Nodup) :
    gsMeasure mp (initState mp) + 1 = gsFuel mp := by
  rw [gsMeasure, gsFuel, remainingP_init]
  rw [show (initState mp).freeMen = keysOf mp from rfl, freeSum_init hnd]
  rw [show (initState mp).current = none from rfl]
  show (maxLen mp + 2) * sumLens mp + (sumLens mp + 2 * mp.length) + 0 + 1 =
    (maxLen mp + 2) * sumLens mp + sumLens mp + 2 * mp.length + 1
  omega

/-- The run of `stable_marriage` always reaches the normal exit of its
`while` loop: the fuel `gsFuel` provably suffices. -/
theorem final_halted {mp : List (α × List β)} {wp : List (β × List α)}
    (hv : Valid mp wp) : Halted (finalState mp wp) := by
  apply run_halted hv (gsFuel mp) (initState mp) (inv_init hv)
  have := measure_init hv.1
  omega

theorem inv_final {mp : List (α × List β)} {wp : List (β × List α)}
    (hv : Valid mp wp) : Inv mp wp (finalState mp wp) :=
  inv_run hv (gsFuel mp) (initState mp) (inv_init hv)

theorem stable_marriage_eq_final (mp : List (α × List β)) (wp : List (β × List α)) :
    stable_marriage mp wp = (finalState mp wp).engaged := rfl

/-! ### Stability -/

/-- Partner of a proposer in a woman→man matching dict: the first receiver
mapped to him, if any. -/
def mPartner (g : List (β × α)) (p : α) : Option β :=
  match g with
  | [] => none
  | e :: rest => if e.2 = p then some e.1 else mPartner rest p

theorem mPartner_eq_none {g : List (β × α)} {p : α} :
    mPartner g p = none ↔ ∀ e ∈ g, e.2 ≠ p := by
  induction g with
  | nil => simp [mPartner]
  | cons e rest ih =>
    by_cases he : e.2 = p
    · simp [mPartner, he]
    · simp [mPartner, he, ih]

theorem mPartner_mem {g : List (β × α)} {p : α} {w : β} (h : mPartner g p = some w) :
    (w, p) ∈ g := by
  induction g with
  | nil => simp [mPartner] at h
  | cons e rest ih =>
    rw [mPartner] at h
    by_cases he : e.2 = p
    · rw [if_pos he] at h
      injection h with h
      refine List.mem_cons.mpr (Or.inl ?_)
      rw [← h, ← he]
    · rw [if_neg he] at h
      exact List.mem_cons_of_mem _ (ih h)

/-- The proposer half of the blocking-pair condition: `p` is unmatched, or
prefers `r` to his assigned partner. -/
def proposerPrefers (mp : List (α × List β)) (g : List (β × α)) (p : α) (r : β) :
    Prop :=
  match mPartner g p with
  | none => True
  | some w => pyIndex r (prefsOf mp p) < pyIndex w (prefsOf mp p)

/-- The receiver half of the blocking-pair condition: `r` is unengaged, or
prefers `p` to her assigned partner. -/
def receiverPrefers (wp : List (β × List α)) (g : List (β × α)) (p : α) (r : β) :
    Prop :=
  match dlookup r g with
  | none => True
  | some c => pyIndex p (wlistOf wp r) < pyIndex c (wlistOf wp r)

/-- Blocking pair for a matching `g`: `p` and `r` are not matched to each
other, yet each prefers the other to its assigned partner (or is unmatched). -/
def Blocking (mp : List (α × List β)) (wp : List (β × List α)) (g : List (β × α))
    (p : α) (r : β) : Prop :=
  dlookup r g ≠ some p ∧ proposerPrefers mp g p r ∧ receiverPrefers wp g p r

instance (mp : List (α × List β)) (g : List (β × α)) (p : α) (r : β) :
    Decidable (proposerPrefers mp g p r) := by
  unfold proposerPrefers
  cases mPartner g p with
  | none => exact isTrue trivial
  | some w => exact Nat.decLt _ _

instance (wp : List (β × List α)) (g : List (β × α)) (p : α) (r : β) :
    Decidable (receiverPrefers wp g p r) := by
  unfold receiverPrefers
  cases dlookup r g with
  | none => exact isTrue trivial
  | some c => exact Nat.decLt _ _

instance (mp : List (α × List β)) (wp : List (β × List α)) (g : List (β × α))
    (p : α) (r : β) : Decidable (Blocking mp wp g p r) := by
  unfold Blocking
  infer_instance

theorem mem_of_get?_init {h p : List β} {n : Nat} {r : β} (hinit : IsInit h p)
    (hg : p.get? n = some r) (hn : n < h.length) : r ∈ h := by
  have := hinit.get? hn
  rw [hg] at this
  exact List.get?_mem this.symm

/-- Core stability result: if a proposer ever proposed to a receiver, the
final matching pairs her with someone she weakly prefers; hence no blocking
pair survives. -/
theorem stable_marriage_stable {mp : List (α × List β)} {wp : List (β × List α)}
    (hv : Valid mp wp) {p : α} (hp : p ∈ keysOf mp) {r : β} (hr : r ∈ keysOf wp) :
    ¬ Blocking mp wp (stable_marriage mp wp) p r := by
  rintro ⟨hnm, hpp, hrp⟩
  have hinv := inv_final hv
  have hh := final_halted hv
  rw [stable_marriage_eq_final] at hnm hpp hrp
  -- step 1: r must be in p's final proposal history
  have hrhist : r ∈ histOf (finalState mp wp).proposals p := by
    cases hm : mPartner (finalState mp wp).engaged p with
    | none =>
      have hne : NotEngaged (finalState mp wp).engaged p := mPartner_eq_none.mp hm
      have hexh := hinv.exhausted p hp
        (by rw [hh.2]; exact List.not_mem_nil p)
        (by intro l hl; rw [hh.1] at hl; exact Option.noConfusion hl) hne
      rw [hexh]
      exact mem_prefs_of_mem_keysW hv hp hr
    | some wq =>
      have hmem : (wq, p) ∈ (finalState mp wp).engaged := mPartner_mem hm
      have hlq : dlookup wq (finalState mp wp).engaged = some p :=
        mem_dlookup hinv.engKeysNodup hmem
      obtain ⟨h, hhist⟩ := hinv.engLast wq p hlq
      have hinit := hinv.histInit p hp
      have hidx : pyIndex wq (prefsOf mp p) = h.length := by
        have hget : (histOf (finalState mp wp).proposals p).get? h.length = some wq := by
          rw [hhist]
          rw [List.get?_append_right (Nat.le_refl _)]
          simp
        have hlen : h.length < (histOf (finalState mp wp).proposals p).length := by
          rw [hhist]
          simp
        have := hinit.get? hlen
        rw [hget] at this
        exact pyIndex_of_get? (valid_prefs_nodup hv hp) this
      have hpp' : pyIndex r (prefsOf mp p) < pyIndex wq (prefsOf mp p) := by
        have : proposerPrefers mp (finalState mp wp).engaged p r := hpp
        unfold proposerPrefers at this
        rw [hm] at this
        exact this
      have hrmem : r ∈ prefsOf mp p := mem_prefs_of_mem_keysW hv hp hr
      have hget : (prefsOf mp p).get? (pyIndex r (prefsOf mp p)) = some r :=
        pyIndex_get? hrmem
      refine mem_of_get?_init hinit hget ?_
      rw [hhist]
      rw [List.length_append, List.length_singleton]
      omega
  -- step 2: propBetter contradicts the blocking conditions
  obtain ⟨c, hcl, hcc⟩ := hinv.propBetter p hp r hrhist
  rcases hcc with hcp | hlt
  · subst hcp
    exact hnm hcl
  · have hrp' : pyIndex p (wlistOf wp r) < pyIndex c (wlistOf wp r) := by
      have : receiverPrefers wp (finalState mp wp).engaged p r := hrp
      unfold receiverPrefers at this
      rw [hcl] at this
      exact this
    omega

/-! ### Proposer-optimality -/

/-- A well-formed woman→man matching over the same agent universe. -/
def IsMatching (mp : List (α × List β)) (wp : List (β × List α))
    (g : List (β × α)) : Prop :=
  (keysOf g).Nodup ∧ (∀ e ∈ g, e.1 ∈ keysOf wp ∧ e.2 ∈ keysOf mp) ∧
    ∀ e ∈ g, ∀ e' ∈ g, e.2 = e'.2 → e.1 = e'.1

/-- A matching is stable when no proposer/receiver pair blocks it. -/
def StableM (mp : List (α × List β)) (wp : List (β × List α))
    (g : List (β × α)) : Prop :=
  ∀ p ∈ keysOf mp, ∀ r ∈ keysOf wp, ¬ Blocking mp wp g p r

instance (mp : List (α × List β)) (wp : List (β × List α)) (g : List (β × α)) :
    Decidable (IsMatching mp wp g) := by
  unfold IsMatching
  infer_instance

instance (mp : List (α × List β)) (wp : List (β × List α)) (g : List (β × α)) :
    Decidable (StableM mp wp g) := by
  unfold StableM
  infer_instance

/-- Weak preference between a proposer's outcomes: matched beats unmatched,
and among partners the lower rank (earlier in his list) is weakly better. -/
def WeakPrefOutcome (prefs : List β) : Option β → Option β → Prop
  | some w, some wq => pyIndex w prefs ≤ pyIndex wq prefs
  | some _, none => True
  | none, some _ => False
  | none, none => True

instance (prefs : List β) (a b : Option β) : Decidable (WeakPrefOutcome prefs a b) := by
  unfold WeakPrefOutcome
  rcases a with _ | w
  · rcases b with _ | wq
    · exact isTrue trivial
    · exact isFalse (fun h => h)
  · rcases b with _ | wq
    · exact isTrue trivial
    · exact Nat.decLe _ _

theorem isInit_trans {a b c : List γ} (h1 : IsInit a b) (h2 : IsInit b c) :
    IsInit a c := by
  obtain ⟨t1, ht1⟩ := h1
  obtain ⟨t2, ht2⟩ := h2
  exact ⟨t1 ++ t2, by rw [ht2, ht1, List.append_assoc]⟩

theorem IsInit.nodup_left {l₁ l₂ : List γ} (h : IsInit l₁ l₂) (hnd : l₂.Nodup) :
    l₁.Nodup := by
  obtain ⟨t, ht⟩ := h
  rw [ht, List.nodup_append] at hnd
  exact hnd.1

theorem pyIndex_last {h prefs : List γ} {w : γ} (hinit : IsInit (h ++ [w]) prefs)
    (hnd : prefs.Nodup) : pyIndex w prefs = h.length := by
  have hget : (h ++ [w]).get? h.length = some w := by
    rw [List.get?_append_right (Nat.le_refl _)]
    simp
  have hlen : h.length < (h ++ [w]).length := by simp
  have := hinit.get? hlen
  rw [hget] at this
  exact pyIndex_of_get? hnd this

theorem better_mem_init {h prefs : List γ} {w wq : γ}
    (hinit : IsInit (h ++ [w]) prefs) (hnd : prefs.Nodup) (hwq : wq ∈ prefs)
    (hlt : pyIndex wq prefs < pyIndex w prefs) : wq ∈ h := by
  have hidx := pyIndex_last hinit hnd
  rw [hidx] at hlt
  have hget : prefs.get? (pyIndex wq prefs) = some wq := pyIndex_get? hwq
  exact mem_of_get?_init (isInit_trans ⟨[w], rfl⟩ hinit) hget hlt

/-- Rejection invariant driving proposer-optimality: any proposer/receiver
pair where the proposal was made but the pair is not currently engaged can
never be married in the fixed stable matching `M'`. -/
def RejInv (M' : List (β × α)) (s : GSState α β) : Prop :=
  ∀ m w, w ∈ histOf s.proposals m → dlookup w s.engaged ≠ some m →
    dlookup w M' ≠ some m

/-- If a proposer `win` has been rejected by every receiver he prefers to `w`,
`w` is currently held by/being given to `win` ahead of `other`, and the stable
matching `M'` pairs `w` with `other`, then (`win`, `w`) blocks `M'`. -/
theorem winner_blocks {mp : List (α × List β)} {wp : List (β × List α)}
    (hv : Valid mp wp) {M' : List (β × α)} (hM : IsMatching mp wp M')
    (hst : StableM mp wp M') {win : α} {w : β} (hwin : win ∈ keysOf mp)
    (hw : w ∈ keysOf wp)
    (hbetter : ∀ wq ∈ keysOf wp,
      pyIndex wq (prefsOf mp win) < pyIndex w (prefsOf mp win) →
        dlookup wq M' ≠ some win)
    {other : α} (hother : dlookup w M' = some other) (hne : other ≠ win)
    (hrcomp : pyIndex win (wlistOf wp w) < pyIndex other (wlistOf wp w)) : False := by
  refine hst win hwin w hw ⟨?_, ?_, ?_⟩
  · intro hcon
    rw [hother] at hcon
    injection hcon with hcon
    exact hne hcon
  · unfold proposerPrefers
    cases hmp : mPartner M' win with
    | none => trivial
    | some wq =>
      have hmem : (wq, win) ∈ M' := mPartner_mem hmp
      have hlq : dlookup wq M' = some win := mem_dlookup hM.1 hmem
      have hwqW : wq ∈ keysOf wp := (hM.2.1 _ hmem).1
      have hwqw : wq ≠ w := by
        intro hq
        rw [hq, hother] at hlq
        injection hlq with hlq
        exact hne hlq
      have hmemp : w ∈ prefsOf mp win := mem_prefs_of_mem_keysW hv hwin hw
      have hmemq : wq ∈ prefsOf mp win := mem_prefs_of_mem_keysW hv hwin hwqW
      have hneidx : pyIndex w (prefsOf mp win) ≠ pyIndex wq (prefsOf mp win) := by
        intro hq
        exact hwqw (pyIndex_inj hmemq hmemp hq.symm)
      have : ¬ pyIndex wq (prefsOf mp win) < pyIndex w (prefsOf mp win) := by
        intro hq
        exact hbetter wq hwqW hq hlq
      omega
  · unfold receiverPrefers
    rw [hother]
    exact hrcomp

theorem rej_init (mp : List (α × List β)) (M' : List (β × α)) :
    RejInv M' (initState mp (β := β)) := by
  intro m w hmem
  rw [show (initState mp).proposals = mp.map (fun e => (e.1, ([] : List β))) from rfl,
    histOf_initState] at hmem
  simp at hmem

theorem rej_step {mp : List (α × List β)} {wp : List (β × List α)} {M' : List (β × α)}
    (hv : Valid mp wp) (hM : IsMatching mp wp M') (hst : StableM mp wp M')
    {s : GSState α β} (hs : Inv mp wp s) (hr : RejInv M' s) :
    RejInv M' (gsStep mp wp s) := by
  obtain ⟨cur, free, eng, pr⟩ := s
  cases cur with
  | none =>
    cases free with
    | nil => exact hr
    | cons man rest => exact hr
  | some ml =>
    obtain ⟨man, l⟩ := ml
    cases l with
    | nil => exact hr
    | cons w restL =>
      have hman : man ∈ keysOf mp := hs.curKeys man _ rfl
      have hmanNE : NotEngaged eng man := hs.curNotEng man _ rfl
      by_cases hw : w ∈ histOf pr man
      · have hred : gsStep mp wp ⟨some (man, w :: restL), free, eng, pr⟩ =
            ⟨some (man, restL), free, eng, pr⟩ := by
          simp [gsStep, histOf] at hw ⊢
          simp [hw]
        rw [hred]
        exact hr
      · have hsplit : prefsOf mp man = histOf pr man ++ w :: restL :=
          propose_split hv hs rfl hw
        have hwW : w ∈ keysOf wp := by
          refine mem_keysW_of_mem_prefs hv hman ?_
          rw [hsplit]
          exact List.mem_append.mpr (Or.inr (List.mem_cons_self _ _))
        have hinitsnoc : IsInit (histOf pr man ++ [w]) (prefsOf mp man) := by
          refine ⟨restL, ?_⟩
          rw [hsplit]
          simp
        -- rejections of the proposing man before this step stay rejected
        have hrman : ∀ wq ∈ keysOf wp,
            pyIndex wq (prefsOf mp man) < pyIndex w (prefsOf mp man) →
              dlookup wq M' ≠ some man := by
          intro wq hwqW hlt
          have hwqmem : wq ∈ prefsOf mp man := mem_prefs_of_mem_keysW hv hman hwqW
          have hwqhist : wq ∈ histOf pr man :=
            better_mem_init hinitsnoc (valid_prefs_nodup hv hman) hwqmem hlt
          exact hr man wq hwqhist (notEngaged_lookup hmanNE wq)
        cases hc : dlookup w eng with
        | none =>
          have hred : gsStep mp wp ⟨some (man, w :: restL), free, eng, pr⟩ =
              ⟨none, free, dinsert w man eng, dinsert man (histOf pr man ++ [w]) pr⟩ := by
            have hw' : w ∉ (dlookup man pr).getD [] := hw
            simp [gsStep, hw', hc, histOf]
          rw [hred]
          intro m w1 hhist heng
          by_cases hmman : m = man
          · subst hmman
            rw [show histOf (dinsert m (histOf pr m ++ [w]) pr) m = histOf pr m ++ [w]
              from histOf_dinsert_self pr m _] at hhist
            rcases List.mem_append.mp hhist with h1 | h1
            · exact hr m w1 h1 (notEngaged_lookup hmanNE w1)
            · rw [List.mem_singleton] at h1
              subst h1
              rw [dlookup_dinsert_self] at heng
              exact absurd rfl heng
          · rw [histOf_dinsert_ne hmman] at hhist
            refine hr m w1 hhist ?_
            by_cases hw1 : w1 = w
            · subst hw1
              rw [hc]
              intro hcon
              exact Option.noConfusion hcon
            · rw [dlookup_dinsert_ne hw1] at heng
              exact heng
        | some c =>
          have hcmem : (w, c) ∈ eng := dlookup_mem hc
          have hcK : c ∈ keysOf mp := hs.engValsKeys _ hcmem
          have hmanc : man ≠ c := fun h => hmanNE (w, c) hcmem h.symm
          by_cases hcomp : pyIndex man (wlistOf wp w) < pyIndex c (wlistOf wp w)
          · -- the incumbent c is displaced and freed: (c, w) joins the rejected set
            have hred : gsStep mp wp ⟨some (man, w :: restL), free, eng, pr⟩ =
                ⟨none, free ++ [c], dinsert w man eng,
                  dinsert man (histOf pr man ++ [w]) pr⟩ := by
              have hw' : w ∉ (dlookup man pr).getD [] := hw
              have hcomp' : pyIndex man ((dlookup w wp).getD []) <
                  pyIndex c ((dlookup w wp).getD []) := hcomp
              simp [gsStep, hw', hc, hcomp', histOf]
            rw [hred]
            intro m w1 hhist heng
            by_cases hmman : m = man
            · subst hmman
              rw [show histOf (dinsert m (histOf pr m ++ [w]) pr) m = histOf pr m ++ [w]
                from histOf_dinsert_self pr m _] at hhist
              rcases List.mem_append.mp hhist with h1 | h1
              · exact hr m w1 h1 (notEngaged_lookup hmanNE w1)
              · rw [List.mem_singleton] at h1
                subst h1
                rw [dlookup_dinsert_self] at heng
                exact absurd rfl heng
            · rw [histOf_dinsert_ne hmman] at hhist
              by_cases hw1 : w1 = w
              · subst hw1
                by_cases hmc : m = c
                · subst hmc
                  -- the new rejection: M' cannot pair c with w, else (man, w) blocks M'
                  intro hM'c
                  exact winner_blocks hv hM hst hman hwW hrman hM'c
                    (fun h => hmanc h.symm) hcomp
                · refine hr m w1 hhist ?_
                  rw [hc]
                  intro hcon
                  injection hcon with hcon
                  exact hmc hcon.symm
              · rw [dlookup_dinsert_ne hw1] at heng
                exact hr m w1 hhist heng
          · -- the proposer man is rejected: (man, w) joins the rejected set
            have hred : gsStep mp wp ⟨some (man, w :: restL), free, eng, pr⟩ =
                ⟨some (man, restL), free, eng,
                  dinsert man (histOf pr man ++ [w]) pr⟩ := by
              have hw' : w ∉ (dlookup man pr).getD [] := hw
              have hcomp' : ¬ pyIndex man ((dlookup w wp).getD []) <
                  pyIndex c ((dlookup w wp).getD []) := hcomp
              simp [gsStep, hw', hc, hcomp', histOf]
            rw [hred]
            have hstrict : pyIndex c (wlistOf wp w) < pyIndex man (wlistOf wp w) := by
              have hmw : man ∈ wlistOf wp w := mem_wlist_of_mem_keysM hv hwW hman
              have hcw : c ∈ wlistOf wp w := mem_wlist_of_mem_keysM hv hwW hcK
              have hne : pyIndex c (wlistOf wp w) ≠ pyIndex man (wlistOf wp w) := by
                intro h
                exact hmanc (pyIndex_inj hcw hmw h).symm
              omega
            intro m w1 hhist heng
            by_cases hmman : m = man
            · subst hmman
              rw [show histOf (dinsert m (histOf pr m ++ [w]) pr) m = histOf pr m ++ [w]
                from histOf_dinsert_self pr m _] at hhist
              rcases List.mem_append.mp hhist with h1 | h1
              · exact hr m w1 h1 (notEngaged_lookup hmanNE w1)
              · rw [List.mem_singleton] at h1
                subst h1
                -- the new rejection: M' cannot pair man with w1, else (c, w1) blocks M'
                obtain ⟨h0, hh0⟩ := hs.engLast w1 c hc
                have hh0' : histOf pr c = h0 ++ [w1] := hh0
                have hinitc : IsInit (histOf pr c) (prefsOf mp c) := hs.histInit c hcK
                rw [hh0'] at hinitc
                have hbc : ∀ wq ∈ keysOf wp,
                    pyIndex wq (prefsOf mp c) < pyIndex w1 (prefsOf mp c) →
                      dlookup wq M' ≠ some c := by
                  intro wq hwqW hlt
                  have hwqmem : wq ∈ prefsOf mp c := mem_prefs_of_mem_keysW hv hcK hwqW
                  have hwqh0 : wq ∈ h0 :=
                    better_mem_init hinitc (valid_prefs_nodup hv hcK) hwqmem hlt
                  have hwqhist : wq ∈ histOf pr c := by
                    rw [hh0']
                    exact List.mem_append.mpr (Or.inl hwqh0)
                  refine hr c wq hwqhist ?_
                  intro hcon
                  have hweq : wq = w1 := hs.engInj wq w1 c hcon hc
                  have hndc : (h0 ++ [w1]).Nodup :=
                    hinitc.nodup_left (valid_prefs_nodup hv hcK)
                  rw [List.nodup_append] at hndc
                  exact hndc.2.2 hwqh0 (by rw [List.mem_singleton]; exact hweq)
                intro hM'm
                exact winner_blocks hv hM hst hcK hwW hbc hM'm hmanc hstrict
            · rw [histOf_dinsert_ne hmman] at hhist
              exact hr m w1 hhist heng

theorem rej_run {mp : List (α × List β)} {wp : List (β × List α)} {M' : List (β × α)}
    (hv : Valid mp wp) (hM : IsMatching mp wp M') (hst : StableM mp wp M') :
    ∀ (n : Nat) (s : GSState α β), Inv mp wp s → RejInv M' s →
      RejInv M' (gsRun mp wp n s) := by
  intro n
  induction n with
  | zero => exact fun s _ hr => hr
  | succ n ih =>
    intro s hs hr
    rw [gsRun]
    rcases hcur : s.current with _ | ml
    · rcases hfree : s.freeMen with _ | ⟨man, rest⟩
      · obtain ⟨cur, fr, eng, pr⟩ := s
        simp only at hcur hfree
        subst hcur
        subst hfree
        exact hr
      · have hs' := inv_step hv hs
        have hr' := rej_step hv hM hst hs hr
        obtain ⟨cur, fr, eng, pr⟩ := s
        simp only at hcur hfree
        subst hcur
        subst hfree
        exact ih _ hs' hr'
    · have hs' := inv_step hv hs
      have hr' := rej_step hv hM hst hs hr
      obtain ⟨cur, fr, eng, pr⟩ := s
      simp only at hcur
      subst hcur
      exact ih _ hs' hr'

/-- Core optimality result: the deferred-acceptance outcome of every proposer
is weakly preferred (by that proposer) to his outcome in any stable matching. -/
theorem stable_marriage_optimal {mp : List (α × List β)} {wp : List (β × List α)}
    (hv : Valid mp wp) {M' : List (β × α)} (hM : IsMatching mp wp M')
    (hst : StableM mp wp M') {p : α} (hp : p ∈ keysOf mp) :
    WeakPrefOutcome (prefsOf mp p) (mPartner (stable_marriage mp wp) p)
      (mPartner M' p) := by
  have hinv := inv_final hv
  have hh := final_halted hv
  have hrej : RejInv M' (finalState mp wp) :=
    rej_run hv hM hst (gsFuel mp) (initState mp) (inv_init hv) (rej_init mp M')
  rw [stable_marriage_eq_final]
  cases hgs : mPartner (finalState mp wp).engaged p with
  | none =>
    have hne : NotEngaged (finalState mp wp).engaged p := mPartner_eq_none.mp hgs
    have hexh := hinv.exhausted p hp
      (by rw [hh.2]; exact List.not_mem_nil p)
      (by intro l hl; rw [hh.1] at hl; exact Option.noConfusion hl) hne
    cases hM' : mPartner M' p with
    | none => trivial
    | some wq =>
      have hmem : (wq, p) ∈ M' := mPartner_mem hM'
      have hlq : dlookup wq M' = some p := mem_dlookup hM.1 hmem
      have hwqW : wq ∈ keysOf wp := (hM.2.1 _ hmem).1
      have hwqhist : wq ∈ histOf (finalState mp wp).proposals p := by
        rw [hexh]
        exact mem_prefs_of_mem_keysW hv hp hwqW
      exact hrej p wq hwqhist (notEngaged_lookup hne wq) hlq
  | some wgs =>
    cases hM' : mPartner M' p with
    | none => trivial
    | some wq =>
      show pyIndex wgs (prefsOf mp p) ≤ pyIndex wq (prefsOf mp p)
      by_contra hcon
      push_neg at hcon
      have hmemgs : (wgs, p) ∈ (finalState mp wp).engaged := mPartner_mem hgs
      have hlgs : dlookup wgs (finalState mp wp).engaged = some p :=
        mem_dlookup hinv.engKeysNodup hmemgs
      obtain ⟨h0, hh0⟩ := hinv.engLast wgs p hlgs
      have hinitp := hinv.histInit p hp
      rw [hh0] at hinitp
      have hmem : (wq, p) ∈ M' := mPartner_mem hM'
      have hlq : dlookup wq M' = some p := mem_dlookup hM.1 hmem
      have hwqW : wq ∈ keysOf wp := (hM.2.1 _ hmem).1
      have hwqmem : wq ∈ prefsOf mp p := mem_prefs_of_mem_keysW hv hp hwqW
      have hwqh0 : wq ∈ h0 :=
        better_mem_init hinitp (valid_prefs_nodup hv hp) hwqmem hcon
      have hwqhist : wq ∈ histOf (finalState mp wp).proposals p := by
        rw [hh0]
        exact List.mem_append.mpr (Or.inl hwqh0)
      refine hrej p wq hwqhist ?_ hlq
      intro hconl
      have hweq : wq = wgs := hinv.engInj wq wgs p hconl hlgs
      have hndp : (h0 ++ [wgs]).Nodup :=
        hinitp.nodup_left (valid_prefs_nodup hv hp)
      rw [List.nodup_append] at hndp
      exact hndp.2.2 hwqh0 (by rw [List.mem_singleton]; exact hweq)

/-! ### Proposal accounting -/

theorem sum_le_length_mul {l : List Nat} {c : Nat} (h : ∀ x ∈ l, x ≤ c) :
    l.sum ≤ l.length * c := by
  induction l with
  | nil => simp
  | cons x xs ih =>
    rw [List.sum_cons, List.length_cons]
    have hx := h x (List.mem_cons_self _ _)
    have hxs := ih (fun y hy => h y (List.mem_cons_of_mem _ hy))
    have : (xs.length + 1) * c = xs.length * c + c := by ring
    omega

theorem prefs_length_eq {mp : List (α × List β)} {wp : List (β × List α)}
    (hv : Valid mp wp) {m : α} (hm : m ∈ keysOf mp) :
    (prefsOf mp m).length = wp.length := by
  have := (valid_prefs_perm hv hm).length_eq
  rw [this, keysOf, List.length_map]

theorem hist_final_nodup {mp : List (α × List β)} {wp : List (β × List α)}
    (hv : Valid mp wp) {m : α} (hm : m ∈ keysOf mp) :
    (histOf (finalState mp wp).proposals m).Nodup :=
  ((inv_final hv).histInit m hm).nodup_left (valid_prefs_nodup hv hm)

theorem hist_final_le {mp : List (α × List β)} {wp : List (β × List α)}
    (hv : Valid mp wp) {m : α} (hm : m ∈ keysOf mp) :
    (histOf (finalState mp wp).proposals m).length ≤ wp.length := by
  have h1 := ((inv_final hv).histInit m hm).length_le
  rw [prefs_length_eq hv hm] at h1
  exact h1

theorem proposals_entry_eq_hist {mp : List (α × List β)} {wp : List (β × List α)}
    (hv : Valid mp wp) {e : α × List β} (he : e ∈ (finalState mp wp).proposals) :
    e.2 = histOf (finalState mp wp).proposals e.1 ∧ e.1 ∈ keysOf mp := by
  have hkeys : keysOf (finalState mp wp).proposals = keysOf mp := (inv_final hv).propKeys
  have hnd : (keysOf (finalState mp wp).proposals).Nodup := by
    rw [hkeys]
    exact hv.1
  have hl := dlookup_of_mem hnd he
  constructor
  · rw [histOf, hl]
    rfl
  · rw [← hkeys]
    exact List.mem_map.mpr ⟨e, he, rfl⟩

/-- Total number of proposals recorded at the end of a run is at most
`|P| * |R|`. -/
theorem total_proposals_le {mp : List (α × List β)} {wp : List (β × List α)}
    (hv : Valid mp wp) :
    (((finalState mp wp).proposals).map (fun e => e.2.length)).sum ≤
      mp.length * wp.length := by
  have hkeys : keysOf (finalState mp wp).proposals = keysOf mp := (inv_final hv).propKeys
  have hlen : (finalState mp wp).proposals.length = mp.length := by
    have := congrArg List.length hkeys
    simpa [keysOf] using this
  have hbound : ∀ x ∈ ((finalState mp wp).proposals).map (fun e => e.2.length),
      x ≤ wp.length := by
    intro x hx
    obtain ⟨e, he, hex⟩ := List.mem_map.mp hx
    obtain ⟨heq, hek⟩ := proposals_entry_eq_hist hv he
    rw [← hex, heq]
    exact hist_final_le hv hek
  have := sum_le_length_mul hbound
  rw [List.length_map, hlen] at this
  exact this

/-! ### Outcome reporter -/

/-- The helper `happiness_score` of
`Ethical_Mutual_Happiness_Stable_Marriage_Solutions.py` (lines 61–65): over
the matched pairs `(woman, man)` it accumulates
`men_prefs[man].index(woman) + women_prefs[woman].index(man)`. -/
def happiness_score (men_prefs : List (α × List β)) (women_prefs : List (β × List α))
    (mtch : List (β × α)) : Nat :=
  (mtch.map (fun e =>
    pyIndex e.1 (prefsOf men_prefs e.2) + pyIndex e.2 (wlistOf women_prefs e.1))).sum

/-- The helper `track_satisfaction` (lines 164–170): per matched pair it
records `(man, woman) ↦ (man's index of woman, woman's index of man)`. -/
def track_satisfaction (mtchs : List (β × α)) (men_prefs : List (α × List β))
    (women_prefs : List (β × List α)) : List ((α × β) × (Nat × Nat)) :=
  mtchs.map (fun e => ((e.2, e.1),
    (pyIndex e.1 (prefsOf men_prefs e.2), pyIndex e.2 (wlistOf women_prefs e.1))))

/-- Rank position in the specification's sense: position `n` holds `x` and no
earlier position does (0 = most preferred). -/
def IsRankOf (l : List γ) (x : γ) (n : Nat) : Prop :=
  l.get? n = some x ∧ ∀ j, j < n → l.get? j ≠ some x

theorem pyIndex_le_of_get? {l : List γ} {j : Nat} {x : γ} (h : l.get? j = some x) :
    pyIndex x l ≤ j := by
  induction l generalizing j with
  | nil => simp at h
  | cons y ys ih =>
    rcases j with _ | j
    · simp only [List.get?] at h
      injection h with h
      simp [pyIndex, h]
    · simp only [List.get?] at h
      by_cases hy : y = x
      · simp [pyIndex, hy]
      · have := ih h
        simp only [pyIndex, hy, if_neg, not_false_iff]
        omega

theorem pyIndex_isRank {x : γ} {l : List γ} (h : x ∈ l) :
    IsRankOf l x (pyIndex x l) := by
  refine ⟨pyIndex_get? h, ?_⟩
  intro j hj hcon
  have := pyIndex_le_of_get? hcon
  omega

/-! ### Score-based variants (`Ethical_Stable_Marriage_Matching_Algorithms.py`) -/

/-- Stable insertion for descending sort by score: an element entering from
earlier in the input goes before later elements with an equal score, matching
Python's stable `sorted(..., reverse=True)`. -/
def insertDesc (x : β × ℚ) : List (β × ℚ) → List (β × ℚ)
  | [] => [x]
  | y :: ys => if y.2 ≤ x.2 then x :: y :: ys else y :: insertDesc x ys

/-- Stable descending sort by score. -/
def sortDesc : List (β × ℚ) → List (β × ℚ)
  | [] => []
  | x :: xs => insertDesc x (sortDesc xs)

/-- The keys of Python's `sorted(..., key=...)` are computed in input order;
the first missing dict entry raises `KeyError` with that pair. -/
def collectScores (ts : List ((α × β) × ℚ)) (man : α) :
    List β → Except (α × β) (List (β × ℚ))
  | [] => Except.ok []
  | w :: ws =>
    match dlookup (man, w) ts with
    | none => Except.error (man, w)
    | some q =>
      match collectScores ts man ws with
      | Except.error k => Except.error k
      | Except.ok rest => Except.ok ((w, q) :: rest)

/-- State of the score-based variants: the engine state of `stable_marriage`
plus a raised-exception slot (the offending dict key). -/
structure ScState (α β ε : Type) where
  current : Option (α × List β)
  freeMen : List α
  engaged : List (β × α)
  proposals : List (α × List β)
  err : Option ε

/-- One elementary step of a score-based variant: identical control flow to
`gsStep` except that the popped man's candidate list comes from a fallible
score sort (lines 16–17 of `trust_based_stable_marriage`) and the
accept/reject test is a fallible score comparison (line 28); a raised
`KeyError` freezes the state. -/
def scStep (mp : List (α × List β))
    (sortPrefs : α → List β → Except ε (List β))
    (accept : α → α → β → Except ε Bool) (s : ScState α β ε) : ScState α β ε :=
  match s.err with
  | some _ => s
  | none =>
    match s.current with
    | none =>
      match s.freeMen with
      | [] => s
      | man :: rest =>
        match sortPrefs man ((dlookup man mp).getD []) with
        | Except.error k => { s with freeMen := rest, err := some k }
        | Except.ok sorted => { s with freeMen := rest, current := some (man, sorted) }
    | some (_, []) => { s with current := none }
    | some (man, w :: restL) =>
      let hist := (dlookup man s.proposals).getD []
      if w ∈ hist then { s with current := some (man, restL) }
      else
        let proposals' := dinsert man (hist ++ [w]) s.proposals
        match dlookup w s.engaged with
        | none =>
          { s with current := none, engaged := dinsert w man s.engaged,
                   proposals := proposals' }
        | some currentMan =>
          match accept man currentMan w with
          | Except.error k => { s with proposals := proposals', err := some k }
          | Except.ok true =>
            { s with current := none, engaged := dinsert w man s.engaged,
                     proposals := proposals', freeMen := s.freeMen ++ [currentMan] }
          | Except.ok false =>
            { s with current := some (man, restL), proposals := proposals' }

/-- Run a score-based variant until the loop exits or an error is raised. -/
def scRun (mp : List (α × List β))
    (sortPrefs : α → List β → Except ε (List β))
    (accept : α → α → β → Except ε Bool) : Nat → ScState α β ε → ScState α β ε
  | 0, s => s
  | n + 1, s =>
    match s.err, s.current, s.freeMen with
    | none, none, [] => s
    | some _, _, _ => s
    | _, _, _ => scRun mp sortPrefs accept n (scStep mp sortPrefs accept s)

/-- Initial state of a score-based variant (lines 9–11). -/
def scInit (mp : List (α × List β)) : ScState α β ε :=
  ⟨none, mp.map Prod.fst, [], mp.map (fun e => (e.1, ([] : List β))), none⟩

/-- Sort a man's preference list descending by a score table (line 17). -/
def scoreSort (ts : List ((α × β) × ℚ)) (man : α) (prefs : List β) :
    Except (α × β) (List β) :=
  match collectScores ts man prefs with
  | Except.error k => Except.error k
  | Except.ok scored => Except.ok ((sortDesc scored).map Prod.fst)

/-- The receiver's decision in a score-based variant (line 28):
`ts[(man, w)] > ts[(cur, w)]`, left lookup evaluated first. -/
def scoreAccept (ts : List ((α × β) × ℚ)) (man cur : α) (w : β) :
    Except (α × β) Bool :=
  match dlookup (man, w) ts with
  | none => Except.error (man, w)
  | some a =>
    match dlookup (cur, w) ts with
    | none => Except.error (cur, w)
    | some b => Except.ok (decide (b < a))

instance {ε σ : Type} [DecidableEq ε] [DecidableEq σ] : DecidableEq (Except ε σ) :=
  fun x y =>
    match x, y with
    | Except.error a, Except.error b =>
      if h : a = b then isTrue (by rw [h])
      else isFalse (fun hc => h (by injection hc))
    | Except.error _, Except.ok _ => isFalse (fun hc => Except.noConfusion hc)
    | Except.ok _, Except.error _ => isFalse (fun hc => Except.noConfusion hc)
    | Except.ok a, Except.ok b =>
      if h : a = b then isTrue (by rw [h])
      else isFalse (fun hc => h (by injection hc))

/-- Package the final state of a score-based run the way the Python function
does: a raised `KeyError` propagates, otherwise the `engaged` dict returns. -/
def scResult (s : ScState α β ε) : Except ε (List (β × α)) :=
  match s.err with
  | some k => Except.error k
  | none => Except.ok s.engaged

/-- The engine `trust_based_stable_marriage` of
`Ethical_Stable_Marriage_Matching_Algorithms.py` (lines 8–33).  The
`women_preferences` parameter is accepted, as in the source, but the body
never reads it. -/
def trust_based_stable_marriage (mp : List (α × List β)) (wp : List (β × List α))
    (trust_scores : List ((α × β) × ℚ)) : Except (α × β) (List (β × α)) :=
  scResult (scRun mp (scoreSort trust_scores) (scoreAccept trust_scores)
    (gsFuel mp) (scInit mp))

/-- The engine `honor_based_matching` (lines 63–88): same loop driven by the
honor-weight table. -/
def honor_based_matching (mp : List (α × List β)) (wp : List (β × List α))
    (honor_weights : List ((α × β) × ℚ)) : Except (α × β) (List (β × α)) :=
  scResult (scRun mp (scoreSort honor_weights) (scoreAccept honor_weights)
    (gsFuel mp) (scInit mp))

/-- The engine `emotional_compatibility_matching` (lines 150–176): same loop
driven by the emotional-score table. -/
def emotional_compatibility_matching (mp : List (α × List β))
    (wp : List (β × List α)) (emotional_scores : List ((α × β) × ℚ)) :
    Except (α × β) (List (β × α)) :=
  scResult (scRun mp (scoreSort emotional_scores) (scoreAccept emotional_scores)
    (gsFuel mp) (scInit mp))

/-- The combined sort key of `holistic_matching` (lines 205–213):
`trust*0.4 + honor*0.3 + emotional*0.3`, with lookups in source order. -/
def holisticScore (ts hw es : List ((α × β) × ℚ)) (k : α × β) :
    Except (Sum (α × β) (β × α)) ℚ :=
  match dlookup k ts with
  | none => Except.error (Sum.inl k)
  | some t =>
    match dlookup k hw with
    | none => Except.error (Sum.inl k)
    | some h =>
      match dlookup k es with
      | none => Except.error (Sum.inl k)
      | some e => Except.ok (t * (2 / 5) + h * (3 / 10) + e * (3 / 10))

/-- Score collection for `holistic_matching`'s sort. -/
def collectHolistic (ts hw es : List ((α × β) × ℚ)) (man : α) :
    List β → Except (Sum (α × β) (β × α)) (List (β × ℚ))
  | [] => Except.ok []
  | w :: ws =>
    match holisticScore ts hw es (man, w) with
    | Except.error k => Except.error k
    | Except.ok q =>
      match collectHolistic ts hw es man ws with
      | Except.error k => Except.error k
      | Except.ok rest => Except.ok ((w, q) :: rest)

/-- The sort of `holistic_matching` (lines 205–213). -/
def holisticSort (ts hw es : List ((α × β) × ℚ)) (man : α) (prefs : List β) :
    Except (Sum (α × β) (β × α)) (List β) :=
  match collectHolistic ts hw es man prefs with
  | Except.error k => Except.error k
  | Except.ok scored => Except.ok ((sortDesc scored).map Prod.fst)

/-- The receiver's decision in `holistic_matching` (line 225):
`care_thresholds[(w, man)] > care_thresholds[(w, cur)]`. -/
def careAccept (ct : List ((β × α) × ℚ)) (man cur : α) (w : β) :
    Except (Sum (α × β) (β × α)) Bool :=
  match dlookup (w, man) ct with
  | none => Except.error (Sum.inr (w, man))
  | some a =>
    match dlookup (w, cur) ct with
    | none => Except.error (Sum.inr (w, cur))
    | some b => Except.ok (decide (b < a))

/-- The engine `holistic_matching` (lines 195–232).  The `women_preferences`
parameter is accepted, as in the source, but the body never reads it. -/
def holistic_matching (mp : List (α × List β)) (wp : List (β × List α))
    (trust_scores honor_weights emotional_scores : List ((α × β) × ℚ))
    (care_thresholds : List ((β × α) × ℚ)) :
    Except (Sum (α × β) (β × α)) (List (β × α)) :=
  scResult (scRun mp (holisticSort trust_scores honor_weights emotional_scores)
    (careAccept care_thresholds) (gsFuel mp) (scInit mp))

/-! ### Error provenance for the score-based variants -/

theorem collectScores_error {ts : List ((α × β) × ℚ)} {man : α} {l : List β}
    {k : α × β} (h : collectScores ts man l = Except.error k) :
    dlookup k ts = none := by
  induction l with
  | nil => simp [collectScores] at h
  | cons w ws ih =>
    rw [collectScores] at h
    cases hl : dlookup (man, w) ts with
    | none =>
      rw [hl] at h
      injection h with h
      rw [← h]
      exact hl
    | some q =>
      rw [hl] at h
      cases hc : collectScores ts man ws with
      | error k' =>
        rw [hc] at h
        injection h with h
        subst h
        exact ih hc
      | ok rest =>
        rw [hc] at h
        exact Except.noConfusion h

theorem scoreSort_error {ts : List ((α × β) × ℚ)} {man : α} {prefs : List β}
    {k : α × β} (h : scoreSort ts man prefs = Except.error k) :
    dlookup k ts = none := by
  rw [scoreSort] at h
  cases hc : collectScores ts man prefs with
  | error k' =>
    rw [hc] at h
    injection h with h
    rw [← h]
    exact collectScores_error hc
  | ok scored =>
    rw [hc] at h
    exact Except.noConfusion h

theorem scoreAccept_error {ts : List ((α × β) × ℚ)} {man cur : α} {w : β}
    {k : α × β} (h : scoreAccept ts man cur w = Except.error k) :
    dlookup k ts = none := by
  rw [scoreAccept] at h
  cases h1 : dlookup (man, w) ts with
  | none =>
    rw [h1] at h
    injection h with h
    rw [← h]
    exact h1
  | some a =>
    rw [h1] at h
    cases h2 : dlookup (cur, w) ts with
    | none =>
      rw [h2] at h
      injection h with h
      rw [← h]
      exact h2
    | some b =>
      rw [h2] at h
      exact Except.noConfusion h

theorem scStep_err (mp : List (α × List β))
    {sortPrefs : α → List β → Except ε (List β)}
    {accept : α → α → β → Except ε Bool} {P : ε → Prop}
    (hsort : ∀ m l k, sortPrefs m l = Except.error k → P k)
    (hacc : ∀ m c w k, accept m c w = Except.error k → P k)
    {s : ScState α β ε} (hs : ∀ k, s.err = some k → P k) :
    ∀ k, (scStep mp sortPrefs accept s).err = some k → P k := by
  intro k hk
  obtain ⟨cur, free, eng, pr, err⟩ := s
  cases err with
  | some k0 => exact hs k hk
  | none =>
    cases cur with
    | none =>
      cases free with
      | nil => exact hs k hk
      | cons man rest =>
        simp only [scStep] at hk
        cases hsr : sortPrefs man ((dlookup man mp).getD []) with
        | error k' =>
          rw [hsr] at hk
          simp only at hk
          injection hk with hk
          rw [← hk]
          exact hsort man _ k' hsr
        | ok sorted =>
          rw [hsr] at hk
          simp only at hk
          exact Option.noConfusion hk
    | some ml =>
      obtain ⟨man, l⟩ := ml
      cases l with
      | nil =>
        simp only [scStep] at hk
        exact Option.noConfusion hk
      | cons w restL =>
        simp only [scStep] at hk
        by_cases hw : w ∈ (dlookup man pr).getD []
        · rw [if_pos hw] at hk
          simp only at hk
          exact Option.noConfusion hk
        · rw [if_neg hw] at hk
          cases he : dlookup w eng with
          | none =>
            rw [he] at hk
            simp only at hk
            exact Option.noConfusion hk
          | some c =>
            rw [he] at hk
            simp only at hk
            cases ha : accept man c w with
            | error k' =>
              rw [ha] at hk
              simp only at hk
              injection hk with hk
              rw [← hk]
              exact hacc man c w k' ha
            | ok b =>
              rw [ha] at hk
              cases b with
              | true =>
                simp only at hk
                exact Option.noConfusion hk
              | false =>
                simp only at hk
                exact Option.noConfusion hk

theorem scRun_err {mp : List (α × List β)}
    {sortPrefs : α → List β → Except ε (List β)}
    {accept : α → α → β → Except ε Bool} {P : ε → Prop}
    (hsort : ∀ m l k, sortPrefs m l = Except.error k → P k)
    (hacc : ∀ m c w k, accept m c w = Except.error k → P k) :
    ∀ (n : Nat) (s : ScState α β ε), (∀ k, s.err = some k → P k) →
      ∀ k, (scRun mp sortPrefs accept n s).err = some k → P k := by
  intro n
  induction n with
  | zero => exact fun s hs => hs
  | succ n ih =>
    intro s hs
    rw [scRun]
    rcases herr : s.err with _ | k0
    · rcases hcur : s.current with _ | ml
      · rcases hfree : s.freeMen with _ | ⟨man, rest⟩
        · obtain ⟨cur, fr, eng, pr, err⟩ := s
          simp only at herr hcur hfree
          subst herr
          subst hcur
          subst hfree
          exact hs
        · have hnext := scStep_err mp hsort hacc hs
          obtain ⟨cur, fr, eng, pr, err⟩ := s
          simp only at herr hcur hfree
          subst herr
          subst hcur
          subst hfree
          exact ih _ hnext
      · have hnext := scStep_err mp hsort hacc hs
        obtain ⟨cur, fr, eng, pr, err⟩ := s
        simp only at herr hcur
        subst herr
        subst hcur
        exact ih _ hnext
    · obtain ⟨cur, fr, eng, pr, err⟩ := s
      simp only at herr
      subst herr
      exact hs

/-- A score-based variant fails only on a key genuinely absent from its score
table: a missing component is surfaced as an error, never silently defaulted. -/
theorem trust_error_not_defaulted {mp : List (α × List β)} {wp : List (β × List α)}
    {ts : List ((α × β) × ℚ)} {k : α × β}
    (h : trust_based_stable_marriage mp wp ts = Except.error k) :
    dlookup k ts = none := by
  rw [trust_based_stable_marriage, scResult] at h
  cases herr : (scRun mp (scoreSort ts) (scoreAccept ts) (gsFuel mp)
    (scInit mp (β := β) (ε := α × β))).err with
  | none =>
    rw [herr] at h
    exact Except.noConfusion h
  | some k0 =>
    rw [herr] at h
    injection h with h
    subst h
    refine scRun_err (fun m l k' hk => scoreSort_error hk)
      (fun m c w k' hk => scoreAccept_error hk) (gsFuel mp) (scInit mp)
      ?_ k0 herr
    intro k' hk'
    exact Option.noConfusion hk'

/-! ### Concrete inputs from the source files -/

/-- The `men_preferences` dict of the source (lines 38–42). -/
def men_preferences : List (String × List String) :=
  [("A", ["X", "Y", "Z"]), ("B", ["Y", "X", "Z"]), ("C", ["Y", "Z", "X"])]

/-- The `women_preferences` dict of the source (lines 43–47). -/
def women_preferences : List (String × List String) :=
  [("X", ["B", "A", "C"]), ("Y", ["A", "B", "C"]), ("Z", ["A", "B", "C"])]

/-- Malformed variant of `men_preferences`: proposer A's list omits receiver Z. -/
def men_preferences_malformed : List (String × List String) :=
  [("A", ["X", "Y"]), ("B", ["Y", "X", "Z"]), ("C", ["Y", "Z", "X"])]

/-- Three proposers over two receivers, full preference lists. -/
def men_preferences_unequal : List (String × List String) :=
  [("A", ["X", "Y"]), ("B", ["X", "Y"]), ("C", ["X", "Y"])]

/-- Two receivers ranking all three proposers. -/
def women_preferences_unequal : List (String × List String) :=
  [("X", ["A", "B", "C"]), ("Y", ["A", "B", "C"])]

/-- The `trust_scores` dict of
`Ethical_Stable_Marriage_Matching_Algorithms.py` (lines 47–51) with the
`(C, Z)` component removed, to exercise a missing score component. -/
def trust_scores_missing : List ((String × String) × ℚ) :=
  [(("A", "X"), mkRat 9 10), (("A", "Y"), mkRat 6 10), (("A", "Z"), mkRat 8 10),
   (("B", "X"), mkRat 7 10), (("B", "Y"), mkRat 8 10), (("B", "Z"), mkRat 5 10),
   (("C", "X"), mkRat 6 10), (("C", "Y"), mkRat 7 10)]

/-- The stable matching the engine produces on the concrete scenario, used as
an alternative matching when instantiating proposer-optimality. -/
def altMatching : List (String × String) :=
  [("X", "A"), ("Y", "B"), ("Z", "C")]

/-! ### The claims -/

set_option maxHeartbeats 4000000

/-- C1: for every input where each proposer's list is a permutation of the
full receiver set and each receiver's list is a permutation of the full
proposer set, the matching returned by `stable_marriage` is stable — there is
no proposer `p` and receiver `r`, not matched to each other, such that `p`
prefers `r` over his assigned partner (or is unmatched) and `r` prefers `p`
over her assigned partner (or is unengaged). -/
theorem claim_C1_stability {mp : List (α × List β)} {wp : List (β × List α)}
    (hv : Valid mp wp) {p : α} (hp : p ∈ keysOf mp) {r : β} (hr : r ∈ keysOf wp) :
    ¬ Blocking mp wp (stable_marriage mp wp) p r :=
  stable_marriage_stable hv hp hr

/-- Witness for C1 at the concrete source scenario, pair (A, Y). -/
theorem claim_C1_stability_witness :
    Valid men_preferences women_preferences ∧
      ¬ Blocking men_preferences women_preferences
        (stable_marriage men_preferences women_preferences) "A" "Y" :=
  ⟨by decide, claim_C1_stability (by decide) (by decide) (by decide)⟩

/-- C2: for every input where both sides' lists are full permutations, the
matching returned by `stable_marriage` is proposer-optimal — against every
other stable matching over the same preference orders, every proposer weakly
prefers his `stable_marriage` outcome to his outcome there. -/
theorem claim_C2_proposer_optimal {mp : List (α × List β)} {wp : List (β × List α)}
    (hv : Valid mp wp) {M' : List (β × α)} (hM : IsMatching mp wp M')
    (hst : StableM mp wp M') {p : α} (hp : p ∈ keysOf mp) :
    WeakPrefOutcome (prefsOf mp p) (mPartner (stable_marriage mp wp) p)
      (mPartner M' p) :=
  stable_marriage_optimal hv hM hst hp

/-- Witness for C2: the concrete scenario with an explicit stable alternative
matching, for proposer A. -/
theorem claim_C2_proposer_optimal_witness :
    StableM men_preferences women_preferences altMatching ∧
      WeakPrefOutcome (prefsOf men_preferences "A")
        (mPartner (stable_marriage men_preferences women_preferences) "A")
        (mPartner altMatching "A") :=
  ⟨by decide, claim_C2_proposer_optimal (by decide) (by decide) (by decide) (by decide)⟩

/-- C3: on every valid input `stable_marriage` terminates — the `while` loop
exits normally within the provided fuel — and the total number of proposals
recorded (sum of final history lengths) is at most |P| × |R|; no proposer
proposes to the same receiver twice, so each history is duplicate-free with at
most |R| entries. -/
theorem claim_C3_termination {mp : List (α × List β)} {wp : List (β × List α)}
    (hv : Valid mp wp) :
    Halted (finalState mp wp) ∧
      (((finalState mp wp).proposals).map (fun e => e.2.length)).sum ≤
        mp.length * wp.length ∧
      ∀ e ∈ (finalState mp wp).proposals, e.2.Nodup ∧ e.2.length ≤ wp.length := by
  refine ⟨final_halted hv, total_proposals_le hv, ?_⟩
  intro e he
  obtain ⟨heq, hek⟩ := proposals_entry_eq_hist hv he
  rw [heq]
  exact ⟨hist_final_nodup hv hek, hist_final_le hv hek⟩

/-- Witness for C3 on the concrete adversarial-style scenario. -/
theorem claim_C3_termination_witness :
    Halted (finalState men_preferences women_preferences) ∧
      (((finalState men_preferences women_preferences).proposals).map
        (fun e => e.2.length)).sum ≤
        men_preferences.length * women_preferences.length ∧
      ∀ e ∈ (finalState men_preferences women_preferences).proposals,
        e.2.Nodup ∧ e.2.length ≤ women_preferences.length :=
  claim_C3_termination (by decide)

/-- C4: throughout every run — after every count of elementary steps, hence
after every individual proposal — the engaged mapping is a partial injective
function: no receiver key occurs twice, and no proposer is the partner of two
distinct receivers. -/
theorem claim_C4_injective {mp : List (α × List β)} {wp : List (β × List α)}
    (hv : Valid mp wp) (n : Nat) :
    (keysOf (gsRun mp wp n (initState mp)).engaged).Nodup ∧
      ∀ w w' m, dlookup w (gsRun mp wp n (initState mp)).engaged = some m →
        dlookup w' (gsRun mp wp n (initState mp)).engaged = some m → w = w' := by
  have h := inv_run hv n (initState mp) (inv_init hv)
  exact ⟨h.engKeysNodup, h.engInj⟩

/-- Witness for C4 after five elementary steps of the concrete scenario. -/
theorem claim_C4_injective_witness :
    (keysOf (gsRun men_preferences women_preferences 5
      (initState men_preferences)).engaged).Nodup ∧
      ∀ w w' m, dlookup w (gsRun men_preferences women_preferences 5
          (initState men_preferences)).engaged = some m →
        dlookup w' (gsRun men_preferences women_preferences 5
          (initState men_preferences)).engaged = some m → w = w' :=
  claim_C4_injective (by decide) 5

/-- C5: on the concrete input of the source file, `stable_marriage` returns
exactly the receiver-to-proposer mapping {X:A, Y:B, Z:C}, and that matching
has zero blocking pairs. -/
theorem claim_C5_concrete :
    stable_marriage men_preferences women_preferences =
      [("X", "A"), ("Y", "B"), ("Z", "C")] ∧
      ∀ p ∈ keysOf men_preferences, ∀ r ∈ keysOf women_preferences,
        ¬ Blocking men_preferences women_preferences
          (stable_marriage men_preferences women_preferences) p r := by
  constructor
  · decide
  · decide

/-- C6 counterexample: when proposer A's list omits receiver Z, the engine
does not raise any error and does not fail fast — it records proposals for
every proposer and returns a full matching, so the run's proposal history is
not empty and a matching is returned. -/
theorem claim_C6_counterexample :
    stable_marriage men_preferences_malformed women_preferences =
      [("X", "A"), ("Y", "B"), ("Z", "C")] ∧
      (finalState men_preferences_malformed women_preferences).proposals =
        [("A", ["X"]), ("B", ["Y"]), ("C", ["Y", "Z"])] := by
  constructor
  · decide
  · decide

/-- C6 amended: `stable_marriage` performs no validation of preference lists.
On an input whose proposer list omits one receiver it raises nothing, runs the
deferred-acceptance loop over the listed receivers only, records a nonempty
proposal history for every proposer, and returns a matching. -/
theorem claim_C6_amended :
    stable_marriage men_preferences_malformed women_preferences =
      [("X", "A"), ("Y", "B"), ("Z", "C")] ∧
      ∀ e ∈ (finalState men_preferences_malformed women_preferences).proposals,
        e.2 ≠ [] := by
  constructor
  · decide
  · decide

/-- C7 counterexample: with the (C, Z) trust component missing, the failure is
raised while C's preferences are being sorted inside the proposal loop — after
proposals by A and B have already been recorded — not during an up-front
validation before the loop runs. -/
theorem claim_C7_counterexample :
    (scRun men_preferences (scoreSort trust_scores_missing)
        (scoreAccept trust_scores_missing) (gsFuel men_preferences)
        (scInit men_preferences)).err = some ("C", "Z") ∧
      (scRun men_preferences (scoreSort trust_scores_missing)
        (scoreAccept trust_scores_missing) (gsFuel men_preferences)
        (scInit men_preferences)).proposals =
        [("A", ["X"]), ("B", ["Y"]), ("C", [])] := by
  constructor
  · decide
  · decide

/-- C7 amended: no up-front validation of score components exists; a missing
component surfaces as a fatal key-lookup error when the affected proposer is
processed during the loop, and is never silently defaulted: whenever
`trust_based_stable_marriage` returns an error, the reported key is genuinely
absent from the score table and no matching is returned. -/
theorem claim_C7_amended {mp : List (α × List β)} {wp : List (β × List α)}
    {ts : List ((α × β) × ℚ)} {k : α × β}
    (h : trust_based_stable_marriage mp wp ts = Except.error k) :
    dlookup k ts = none :=
  trust_error_not_defaulted h

/-- Witness for C7's amended claim at the concrete missing-component input. -/
theorem claim_C7_amended_witness :
    trust_based_stable_marriage men_preferences women_preferences
        trust_scores_missing = Except.error ("C", "Z") ∧
      dlookup ("C", "Z") trust_scores_missing = none :=
  ⟨by decide, @claim_C7_amended String String _ _ men_preferences women_preferences
    trust_scores_missing ("C", "Z") (by decide)⟩

/-- C8 counterexample: for 3 proposers and 2 receivers the value returned by
`stable_marriage` is only the two matched pairs; the unmatched proposer C
appears nowhere in it — no explicit unmatched set accompanies the result. -/
theorem claim_C8_counterexample :
    stable_marriage men_preferences_unequal women_preferences_unequal =
      [("X", "A"), ("Y", "B")] ∧
      ∀ e ∈ stable_marriage men_preferences_unequal women_preferences_unequal,
        e.2 ≠ "C" := by
  constructor
  · decide
  · decide

/-- C8 amended: unequal side sizes are not an error — the engine returns a
partial matching with exactly 2 pairs, and exactly one proposer (C) is left
implicitly unmatched, i.e. absent from the returned mapping; the return value
itself carries no explicit unmatched set. -/
theorem claim_C8_amended :
    (stable_marriage men_preferences_unequal women_preferences_unequal).length = 2 ∧
      (keysOf men_preferences_unequal).filter
        (fun m => decide (mPartner (stable_marriage men_preferences_unequal
          women_preferences_unequal) m = none)) = ["C"] := by
  constructor
  · decide
  · decide

/-- C9: the Outcome Reporter `happiness_score` returns exactly the sum, over
all matched pairs, of the man's rank position of the woman plus the woman's
rank position of the man (0 = most preferred), and `track_satisfaction`
returns exactly those per-pair rank positions; both are pure functions of the
finished matching and the two preference dicts. -/
theorem claim_C9_reporter (mp : List (α × List β)) (wp : List (β × List α))
    (g : List (β × α)) (h : ∀ e ∈ g, e.1 ∈ prefsOf mp e.2 ∧ e.2 ∈ wlistOf wp e.1) :
    happiness_score mp wp g =
      ((track_satisfaction g mp wp).map (fun t => t.2.1 + t.2.2)).sum ∧
      ∀ t ∈ track_satisfaction g mp wp,
        IsRankOf (prefsOf mp t.1.1) t.1.2 t.2.1 ∧
        IsRankOf (wlistOf wp t.1.2) t.1.1 t.2.2 := by
  constructor
  · rw [happiness_score, track_satisfaction, List.map_map]
    rfl
  · intro t ht
    obtain ⟨e, he, het⟩ := List.mem_map.mp ht
    obtain ⟨h1, h2⟩ := h e he
    rw [← het]
    exact ⟨pyIndex_isRank h1, pyIndex_isRank h2⟩

/-- Witness for C9 on the concrete scenario's finished matching. -/
theorem claim_C9_reporter_witness :
    happiness_score men_preferences women_preferences
        (stable_marriage men_preferences women_preferences) =
      ((track_satisfaction (stable_marriage men_preferences women_preferences)
        men_preferences women_preferences).map (fun t => t.2.1 + t.2.2)).sum ∧
      ∀ t ∈ track_satisfaction (stable_marriage men_preferences women_preferences)
          men_preferences women_preferences,
        IsRankOf (prefsOf men_preferences t.1.1) t.1.2 t.2.1 ∧
        IsRankOf (wlistOf women_preferences t.1.2) t.1.1 t.2.2 :=
  claim_C9_reporter men_preferences women_preferences
    (stable_marriage men_preferences women_preferences) (by decide)

/-- C10: none of the four score-based variants reads its `women_preferences`
argument — two calls identical except for that argument return the same
result, because the accept/reject decision is computed from the score tables
alone. -/
theorem claim_C10_wp_independent (mp : List (α × List β)) (wp wp2 : List (β × List α))
    (ts hw es : List ((α × β) × ℚ)) (ct : List ((β × α) × ℚ)) :
    trust_based_stable_marriage mp wp ts = trust_based_stable_marriage mp wp2 ts ∧
      honor_based_matching mp wp hw = honor_based_matching mp wp2 hw ∧
      emotional_compatibility_matching mp wp es =
        emotional_compatibility_matching mp wp2 es ∧
      holistic_matching mp wp ts hw es ct = holistic_matching mp wp2 ts hw es ct :=
  ⟨rfl, rfl, rfl, rfl⟩

end SM
